import Mathlib

/-!
Verification of the timeline (circuit) data structure, the point-rewrite
driver, the qubit mapper, and the EjectZ phase-draining pass of this
repository.

Gates are modelled, following the design notes of the specification, as a
small closed set of capability-tagged opaque values: a gate is a known
phase gate (of the two known Z types, with a half-turns parameter that is
either a numeric value or a symbol), a measurement gate, a phaseable
(phase-commuting) gate, or an opaque other gate.  Turn values are exact
rationals.  Qubit identifiers are natural numbers.

The `Circuit` operations (`insert`, `append`, `clear_operations_touching`,
`next_moment_operating_on`, `prev_moment_operating_on`, `operation_at`,
`insert_into_range`) are modelled from the specification, since the file
defining them is not among the provided sources; their behaviour is pinned
by the repository tests.  The `EjectZ`, `PointOptimizer` and `QubitMapper`
passes are translated directly from the provided sources
(`cirq/google/eject_z.py`, `cirq/circuits/optimization_pass.py`,
`cirq/contrib/quirk/linearize_circuit.py`).
-/

set_option maxHeartbeats 1000000

set_option allowUnsafeReducibility true
attribute [local semireducible] Rat.add Rat.mul Rat.inv Rat.sub

/-- Half-turns parameter of a phase gate: either a numeric value or a
symbol (a parameter dependence). -/
inductive HalfTurns where
  | sym (name : Nat)
  | val (t : ℚ)
deriving DecidableEq, Repr

/-- Modelled from the spec: a gate is an opaque tagged value exposing only
capability predicates: the two known Z types (`expZ` and `rotZ`, i.e.
`ExpZGate` and `RotZGate`), measurement gates, phaseable (phase-commuting)
gates carrying an adjustable phase parameter, and other opaque gates. -/
inductive Gate where
  | expZ (halfTurns : HalfTurns)
  | rotZ (halfTurns : HalfTurns)
  | meas (id : Nat)
  | phaseable (id : Nat) (phase : ℚ)
  | other (id : Nat)
deriving DecidableEq, Repr

namespace Gate

/-- `isinstance(gate, KNOWN_Z_TYPES)` with `KNOWN_Z_TYPES = (ExpZGate, RotZGate)`. -/
def isKnownZ : Gate → Bool
  | .expZ _ => true
  | .rotZ _ => true
  | _ => false

/-- `isinstance(gate, ExpZGate)`. -/
def isExpZ : Gate → Bool
  | .expZ _ => true
  | _ => false

/-- `ext.can_cast(gate, ops.MeasurementGate)`. -/
def isMeas : Gate → Bool
  | .meas _ => true
  | _ => false

/-- `ext.can_cast(gate, ops.PhaseableGate)`. -/
def isPhaseable : Gate → Bool
  | .phaseable _ _ => true
  | _ => false

/-- The `half_turns` attribute of a known Z gate (junk elsewhere). -/
def halfTurns : Gate → HalfTurns
  | .expZ h => h
  | .rotZ h => h
  | _ => .val 0

/-- `phaseable.phase_by(turns, k)`: the phase-adjusted variant of a
phaseable gate; identity on other gates. -/
def phaseBy : Gate → ℚ → Nat → Gate
  | .phaseable id p, turns, _ => .phaseable id (p + turns)
  | g, _, _ => g

end Gate

/-- The numeric value of a half-turns parameter (junk on symbols; the
EjectZ range finder guarantees symbols never reach the arithmetic). -/
def HalfTurns.value : HalfTurns → ℚ
  | .val t => t
  | .sym _ => 0

/-- Whether the half-turns parameter is a `Symbol`. -/
def HalfTurns.isSym : HalfTurns → Bool
  | .sym _ => true
  | .val _ => false

/-- An operation record: a gate applied to an ordered list of qubits. -/
structure Operation where
  gate : Gate
  qubits : List Nat
deriving DecidableEq, Repr

/-- Whether the operation acts on the given qubit. -/
def Operation.touches (op : Operation) (q : Nat) : Bool :=
  op.qubits.contains q

/-- A moment: a time-slice holding a list of operations (the source keeps
them as a tuple; equality of moments in the source is by operation set). -/
structure Moment where
  ops : List Operation
deriving DecidableEq, Repr

namespace Moment

/-- Whether some operation of the moment acts on one of the given qubits. -/
def touchesAny (m : Moment) (qs : List Nat) : Bool :=
  m.ops.any (fun op => qs.any (fun q => op.touches q))

/-- Whether an operation can be added to the moment without sharing a
qubit with an existing operation. -/
def canAdd (m : Moment) (op : Operation) : Bool :=
  !(m.touchesAny op.qubits)

/-- Modelled from the spec: removing (with no placeholder) every
operation touching any of the given qubits. -/
def withoutTouching (m : Moment) (qs : List Nat) : Moment :=
  ⟨m.ops.filter (fun op => !(qs.any (fun q => op.touches q)))⟩

end Moment

/-- A timeline: an ordered sequence of moments. -/
structure Circuit where
  moments : List Moment
deriving DecidableEq, Repr

/-- Modelled from the spec: insertion strategies NEW, INLINE, EARLIEST and
NEW_THEN_INLINE. -/
inductive InsertStrategy where
  | NEW
  | INLINE
  | EARLIEST
  | NEW_THEN_INLINE
deriving DecidableEq, Repr

namespace Circuit

/-- Modelled from the spec: `operation_at(qubit, index)`, the operation at
`index` touching `qubit`, or none if `index` is out of range or no such
operation exists. -/
def operationAt (c : Circuit) (q : Nat) (i : Nat) : Option Operation :=
  match c.moments.get? i with
  | none => none
  | some m => m.ops.find? (fun op => op.touches q)

/-- Modelled from the spec: `clear_operations_touching(qubits, indices)`;
for each in-range index, removes every operation touching any of the
qubits; out-of-range indices are ignored; the moment count is unchanged. -/
def clearOperationsTouching (c : Circuit) (qs : List Nat) (indices : List Int) : Circuit :=
  ⟨indices.foldl (fun ms (k : Int) =>
      if 0 ≤ k then
        match ms.get? k.toNat with
        | some m => ms.set k.toNat (m.withoutTouching qs)
        | none => ms
      else ms) c.moments⟩

end Circuit

/-- Whether an operation can land at index `i` of the moment list: the
index is past the end (a fresh moment would be created) or the moment
there has no qubit conflict with the operation. -/
def canAddAt (ms : List Moment) (i : Nat) (op : Operation) : Bool :=
  ms.length ≤ i ||
    (match ms.get? i with
     | some m => m.canAdd op
     | none => true)

/-- Modelled from the spec (EARLIEST): scan backward from the target
position while moments do not touch any of the operation qubits, returning
the earliest index all of whose successors up to the target are free. -/
def prevAvail (ms : List Moment) (op : Operation) : Nat → Nat
  | 0 => 0
  | k + 1 => if canAddAt ms k op then prevAvail ms op k else k + 1

/-- Modelled from the spec (NEW): open a fresh moment at the target
position; the operation lands there. -/
def pickNew (ms : List Moment) (splice : Nat) : List Moment × Nat :=
  (ms.insertIdx splice ⟨[]⟩, splice)

/-- Modelled from the spec (INLINE): place into the moment immediately
preceding the target position when it has no qubit conflict, otherwise
open a new moment at the target position. -/
def pickInline (ms : List Moment) (splice : Nat) (op : Operation) : List Moment × Nat :=
  if 1 ≤ splice ∧ splice - 1 < ms.length ∧ canAddAt ms (splice - 1) op then
    (ms, splice - 1)
  else pickNew ms splice

/-- Modelled from the spec (EARLIEST): when the target position itself is
available, take the earliest backward-reachable free moment; otherwise
fall back to INLINE placement. -/
def pickEarliest (ms : List Moment) (splice : Nat) (op : Operation) : List Moment × Nat :=
  if canAddAt ms splice op then (ms, prevAvail ms op splice)
  else pickInline ms splice op

/-- Strategy dispatch for picking the moment index an operation lands in
(NEW_THEN_INLINE acts as NEW for the first operation of a batch). -/
def pickIndex (ms : List Moment) (splice : Nat) (op : Operation) :
    InsertStrategy → List Moment × Nat
  | .NEW => pickNew ms splice
  | .NEW_THEN_INLINE => pickNew ms splice
  | .INLINE => pickInline ms splice op
  | .EARLIEST => pickEarliest ms splice op

/-- Pad the moment list with empty moments so that index `p` exists. -/
def padTo (ms : List Moment) (p : Nat) : List Moment :=
  ms ++ List.replicate (p + 1 - ms.length) ⟨[]⟩

/-- Add the operation to the end of the operation tuple of the moment at
`p` (creating empty moments as needed to reach `p`). -/
def placeInto (ms : List Moment) (p : Nat) (op : Operation) : List Moment :=
  let padded := padTo ms p
  padded.set p ⟨((padded.get? p).getD ⟨[]⟩).ops ++ [op]⟩

/-- One step of insertion: pick a landing index for the operation, place
it, advance the insertion frontier, and degrade NEW_THEN_INLINE to INLINE. -/
def insertStep (st : List Moment × Nat × InsertStrategy) (op : Operation) :
    List Moment × Nat × InsertStrategy :=
  let ms := st.1
  let k := st.2.1
  let strat := st.2.2
  let picked := pickIndex ms k op strat
  let ms2 := placeInto picked.1 picked.2 op
  (ms2, max k (picked.2 + 1),
    if strat = InsertStrategy.NEW_THEN_INLINE then InsertStrategy.INLINE else strat)

namespace Circuit

/-- Modelled from the spec: `insert(index, operations, strategy)`.  Fails
(returns `none`, the IndexError) iff the index is negative or greater than
the moment count; otherwise inserts each operation per the strategy and
returns the new circuit together with the index immediately after the
inserted region. -/
def insert (c : Circuit) (index : Int) (opsL : List Operation)
    (strat : InsertStrategy) : Option (Circuit × Nat) :=
  if index < 0 ∨ (c.moments.length : Int) < index then none
  else
    let st := opsL.foldl insertStep (c.moments, index.toNat, strat)
    some (⟨st.1⟩, st.2.1)

/-- The mutable-method view of `insert`: on failure the timeline is left
exactly as it was (the bounds check precedes any mutation). -/
def insertM (c : Circuit) (index : Int) (opsL : List Operation)
    (strat : InsertStrategy) : Circuit × Option Nat :=
  match c.insert index opsL strat with
  | some (c2, k) => (c2, some k)
  | none => (c, none)

/-- Total wrapper used by the optimization passes, whose call sites keep
the index in bounds. -/
def insertD (c : Circuit) (index : Nat) (opsL : List Operation)
    (strat : InsertStrategy) : Circuit :=
  match c.insert index opsL strat with
  | some (c2, _) => c2
  | none => c

/-- Modelled from the spec: `append(operations, strategy)` inserts at the
current moment count. -/
def append (c : Circuit) (opsL : List Operation) (strat : InsertStrategy) : Circuit :=
  c.insertD c.moments.length opsL strat

/-- Whether the moment at `i` (when in range) operates on one of `qs`. -/
def hasOpAt (c : Circuit) (i : Nat) (qs : List Nat) : Bool :=
  match c.moments.get? i with
  | some m => m.touchesAny qs
  | none => false

/-- Modelled from the spec: `next_moment_operating_on(qubits, start,
max_distance)`; the cap is clamped to `len(moments) - start` before use. -/
def nextMomentOperatingOn (c : Circuit) (qs : List Nat) (start : Nat)
    (maxDistance : Option Nat) : Option Nat :=
  let cap :=
    match maxDistance with
    | none => c.moments.length - start
    | some d => min d (c.moments.length - start)
  (List.range' start cap).find? (fun i => c.hasOpAt i qs)

/-- Modelled from the spec: `prev_moment_operating_on(qubits, end,
max_distance)`; the cap is clamped to `end` before use, and out-of-range
indices never match. -/
def prevMomentOperatingOn (c : Circuit) (qs : List Nat) (endIdx : Nat)
    (maxDistance : Option Nat) : Option Nat :=
  let cap :=
    match maxDistance with
    | none => endIdx
    | some d => min d endIdx
  ((List.range' (endIdx - cap) cap).reverse).find? (fun i => c.hasOpAt i qs)

/-- The list of qubits touched by any operation, in first-seen order
(the source computes a set; a fixed deterministic order is taken here). -/
def allQubits (c : Circuit) : List Nat :=
  (c.moments.foldr (fun m acc => m.ops.foldr (fun op a => op.qubits ++ a) acc) []).dedup

end Circuit

/-! ### QubitMapper (from `cirq/contrib/quirk/linearize_circuit.py`) -/

/-- `QubitMapper.map_operation`: same gate, each qubit replaced through the
mapping function. -/
def mapOperation (f : Nat → Nat) (op : Operation) : Operation :=
  ⟨op.gate, op.qubits.map f⟩

/-- `QubitMapper.map_moment`: map every operation of the moment. -/
def mapMoment (f : Nat → Nat) (m : Moment) : Moment :=
  ⟨m.ops.map (mapOperation f)⟩

/-- `QubitMapper.optimize_circuit`: replace the moment list by its image. -/
def qubitMapperOptimize (f : Nat → Nat) (c : Circuit) : Circuit :=
  ⟨c.moments.map (mapMoment f)⟩

/-- Per-moment invariant: distinct operations occupy disjoint qubit sets
(stated over positions so that duplicate records are covered as well). -/
def momentDisjoint (m : Moment) : Prop :=
  ∀ i j, (hi : i < m.ops.length) → (hj : j < m.ops.length) → i ≠ j →
    ∀ q, (m.ops.get ⟨i, hi⟩).touches q → ¬ (m.ops.get ⟨j, hj⟩).touches q

/-! ### PointOptimizer (from `cirq/circuits/optimization_pass.py`) -/

/-- `PointOptimizationSummary`: a local rewrite directive. -/
structure PointOptimizationSummary where
  clearSpan : Nat
  clearQubits : List Nat
  newOperations : List Operation
deriving DecidableEq, Repr

/-- The per-qubit wall map of the driver, as an association list (the
source uses a defaultdict with default 0). -/
abbrev Walls := List (Nat × Nat)

/-- Wall lookup with default 0. -/
def wallsGet (w : Walls) (q : Nat) : Nat :=
  ((w.find? (fun p => p.1 == q)).map (fun p => p.2)).getD 0

/-- Wall update. -/
def wallsSet (w : Walls) (q v : Nat) : Walls :=
  (q, v) :: w.filter (fun p => p.1 != q)

/-- `walls[q] = max(walls[q], n)` over all qubits of the directive. -/
def wallsBump (w : Walls) (qs : List Nat) (n : Nat) : Walls :=
  qs.foldl (fun w q => wallsSet w q (max (wallsGet w q) n)) w

/-- Observable events of a `PointOptimizer.optimize_circuit` run: each
invocation of `optimization_at` (with the walls at call time) and each
fired directive (with the walls right after the bump and the index
returned by `insert_into_range`). -/
inductive POEvent where
  | call (i : Nat) (op : Operation) (walls : Walls)
  | fire (clearQubits : List Nat) (nextIdx : Nat) (walls : Walls)
deriving DecidableEq, Repr

/-- Greedy packing loop of `insert_into_range`: place each operation at
the first conflict-free index of the window at or after the running
pointer; operations that do not fit are returned as leftovers.  The
recursion is driven by an explicit step budget so that it stays
structurally recursive; callers supply a budget large enough for the loop
to run to completion. -/
def packLoop (endI : Nat) : Nat → List Operation → List Moment → Nat →
    List Moment × List Operation
  | 0, opsL, ms, _ => (ms, opsL)
  | _ + 1, [], ms, _ => (ms, [])
  | fuel + 1, op :: rest, ms, i =>
    if i < endI then
      if canAddAt ms i op then packLoop endI fuel rest (placeInto ms i op) i
      else packLoop endI fuel (op :: rest) ms (i + 1)
    else (ms, op :: rest)

/-- Modelled from the spec: `insert_into_range(operations, start, end)`
packs INLINE-style into the fixed window `[start, end)` and returns the
first index at or after the window not disturbed; leftover operations are
inserted at the window end. -/
def Circuit.insertIntoRange (c : Circuit) (opsL : List Operation)
    (start endI : Nat) : Circuit × Nat :=
  let packed := packLoop endI (opsL.length + endI + 1) opsL c.moments start
  match packed.2 with
  | [] => (⟨packed.1⟩, endI)
  | rest =>
    let c1 : Circuit := ⟨packed.1⟩
    match c1.insert (min endI c1.moments.length) rest .EARLIEST with
    | some (c2, k) => (c2, k)
    | none => (c1, endI)

/-- The inner loop of `PointOptimizer.optimize_circuit` over the snapshot
of the operations of moment `i` (the source iterates the moment object
fetched at loop entry while the circuit mutates underneath). -/
def poInner (rule : Circuit → Nat → Operation → Option PointOptimizationSummary)
    (i : Nat) : List Operation → Circuit → Walls → List POEvent →
    Circuit × Walls × List POEvent
  | [], c, w, evs => (c, w, evs)
  | op :: rest, c, w, evs =>
    if op.qubits.any (fun q => i < wallsGet w q) then
      poInner rule i rest c w evs
    else if c.moments.length ≤ i then
      poInner rule i rest c w evs
    else if !(match c.moments.get? i with
              | some m => m.ops.contains op
              | none => false) then
      poInner rule i rest c w evs
    else
      let evs1 := evs ++ [POEvent.call i op w]
      match rule c i op with
      | none => poInner rule i rest c w evs1
      | some s =>
        let c1 := c.clearOperationsTouching s.clearQubits
          ((List.range' i s.clearSpan).map Int.ofNat)
        let packed := c1.insertIntoRange s.newOperations i (i + s.clearSpan)
        let w2 := wallsBump w s.clearQubits packed.2
        poInner rule i rest packed.1 w2 (evs1 ++ [POEvent.fire s.clearQubits packed.2 w2])

/-- The outer while-loop of `PointOptimizer.optimize_circuit`; the circuit
may grow while scanning, so the iteration is fuel-bounded and re-reads the
length each step exactly as the source does. -/
def poOuter (rule : Circuit → Nat → Operation → Option PointOptimizationSummary) :
    Nat → Nat → Circuit → Walls → List POEvent → Circuit × List POEvent
  | 0, _, c, _, evs => (c, evs)
  | fuel + 1, i, c, w, evs =>
    if i < c.moments.length then
      let ops0 := ((c.moments.get? i).map Moment.ops).getD []
      let st := poInner rule i ops0 c w evs
      poOuter rule fuel (i + 1) st.1 st.2.1 st.2.2
    else (c, evs)

/-- `PointOptimizer.optimize_circuit` with its event trace. -/
def pointOptimizerRun (rule : Circuit → Nat → Operation → Option PointOptimizationSummary)
    (fuel : Nat) (c : Circuit) : Circuit × List POEvent :=
  poOuter rule fuel 0 c [] []

/-! ### EjectZ (from `cirq/google/eject_z.py`) -/

/-- Modelled from the spec: `is_negligible_turn(turns, tolerance)`, true
when the distance of the turn value to the nearest whole turn is at most
the tolerance. -/
def isNegligibleTurn (t tol : ℚ) : Bool :=
  |t - round t| ≤ tol

/-- `EjectZ._drain_into`: absorb the accumulated phase at the drain index
(end of circuit: append a fresh Z; an ExpZ gate: merge into its parameter;
anything else, in particular a measurement: discard silently). -/
def drainInto (tol : ℚ) (q : Nat) (drain : Nat) (acc : ℚ) (c : Circuit) : Circuit :=
  if isNegligibleTurn acc tol then c
  else if drain = c.moments.length then
    c.append [⟨.expZ (.val (2 * acc)), [q]⟩] .INLINE
  else
    match c.operationAt q drain with
    | some op =>
      if op.gate.isExpZ then
        let ht := op.gate.halfTurns.value + acc * 2
        let c1 := c.clearOperationsTouching [q] [(drain : Int)]
        c1.insertD (drain + 1) [⟨.expZ (.val ht), [q]⟩] .INLINE
      else c
    | none => c

/-- One index step of `EjectZ._optimize_range`: clear known Z gates into
the accumulator, phase-adjust phaseable gates in place. -/
def optimizeRangeStep (q : Nat) (st : Circuit × ℚ) (i : Nat) : Circuit × ℚ :=
  let c := st.1
  let lost := st.2
  match c.operationAt q i with
  | none => (c, lost)
  | some op =>
    if op.gate.isKnownZ then
      (c.clearOperationsTouching [q] [(i : Int)], lost + op.gate.halfTurns.value / 2)
    else if op.gate.isPhaseable then
      let c1 := c.clearOperationsTouching op.qubits [(i : Int)]
      let k := op.qubits.indexOf q
      let g := op.gate.phaseBy (-lost) k
      (c1.insertD (i + 1) [⟨g, op.qubits⟩] .INLINE, lost)
    else (c, lost)

/-- `EjectZ._optimize_range`: push Z gates from `[start, drain)` into the
drain. -/
def optimizeRange (tol : ℚ) (q : Nat) (start drain : Nat) (c : Circuit) : Circuit :=
  let st := (List.range' start (drain - start)).foldl (optimizeRangeStep q) (c, 0)
  drainInto tol q drain st.2 st.1

/-- A drain range handed to `_optimize_range` by
`_find_optimization_range_drains`, together with the circuit state at the
moment it was produced (the source generator is lazy over the mutating
circuit). -/
structure RangeEv where
  start : Nat
  drain : Nat
  circ : Circuit
deriving DecidableEq, Repr

/-- The interleaved scan of `_find_optimization_range_drains` with the
immediate application of `_optimize_range` to each yielded range, exactly
as the lazy generator runs against the mutating circuit; the scan state is
`(start_z, prev_z)`. -/
def ejectGo (tol : ℚ) (q : Nat) : List Nat → Circuit → Option Nat → Option Nat →
    List RangeEv → Circuit × List RangeEv
  | [], c, startZ, _, evs =>
    match startZ with
    | some s => (optimizeRange tol q s c.moments.length c,
                 evs ++ [⟨s, c.moments.length, c⟩])
    | none => (c, evs)
  | i :: rest, c, startZ, prevZ, evs =>
    match c.operationAt q i with
    | none => ejectGo tol q rest c startZ prevZ evs
    | some op =>
      match startZ with
      | none =>
        if op.gate.isKnownZ && !op.gate.halfTurns.isSym then
          ejectGo tol q rest c (some i) none evs
        else
          ejectGo tol q rest c none prevZ evs
      | some s =>
        if op.gate.isMeas then
          ejectGo tol q rest (optimizeRange tol q s i c) none prevZ (evs ++ [⟨s, i, c⟩])
        else if op.gate.isKnownZ && !op.gate.halfTurns.isSym then
          ejectGo tol q rest c (some s) (some i) evs
        else if !op.gate.isPhaseable then
          match prevZ with
          | some p =>
            ejectGo tol q rest (optimizeRange tol q s p c) none prevZ (evs ++ [⟨s, p, c⟩])
          | none => ejectGo tol q rest c none prevZ evs
        else
          ejectGo tol q rest c (some s) prevZ evs

/-- The EjectZ pass restricted to one qubit, with the list of drain
ranges it produced. -/
def ejectQubitEv (tol : ℚ) (q : Nat) (c : Circuit) : Circuit × List RangeEv :=
  ejectGo tol q (List.range c.moments.length) c none none []

/-- The EjectZ pass restricted to one qubit. -/
def ejectQubit (tol : ℚ) (q : Nat) (c : Circuit) : Circuit :=
  (ejectQubitEv tol q c).1

/-- `EjectZ.optimize_circuit`: run the per-qubit drain scan for every
qubit of the circuit (the source iterates a set; the model fixes the
first-seen order). -/
def ejectZOptimize (tol : ℚ) (c : Circuit) : Circuit :=
  c.allQubits.foldl (fun c q => ejectQubit tol q c) c

/-! ### Basic lemmas -/

theorem touches_iff_mem (op : Operation) (q : Nat) :
    op.touches q = true ↔ q ∈ op.qubits := by
  simp [Operation.touches]

/-! ### Claim C10: QubitMapper preserves structure and disjointness -/

/-- C10: for every circuit and injective qubit mapping, the mapped circuit
has the same number of moments, moment `k` consists of exactly the
operations of original moment `k` with the gate unchanged and each qubit
replaced through the mapping, and the per-moment disjointness invariant is
preserved. -/
theorem qubitMapper_preserves (f : Nat → Nat) (hf : Function.Injective f)
    (c : Circuit) :
    (qubitMapperOptimize f c).moments.length = c.moments.length ∧
    (∀ k m, c.moments.get? k = some m →
      (qubitMapperOptimize f c).moments.get? k =
        some ⟨m.ops.map (fun op => ⟨op.gate, op.qubits.map f⟩)⟩) ∧
    (∀ k m, c.moments.get? k = some m → momentDisjoint m →
      ∀ m2, (qubitMapperOptimize f c).moments.get? k = some m2 → momentDisjoint m2) := by
  refine ⟨by simp [qubitMapperOptimize], ?_, ?_⟩
  · intro k m hm
    simp only [qubitMapperOptimize, List.get?_map, hm, Option.map_some']
    rfl
  · intro k m hm hd m2 hm2
    simp only [qubitMapperOptimize, List.get?_map, hm, Option.map_some'] at hm2
    cases hm2
    intro i j hi hj hij q hti htj
    simp only [mapMoment, List.length_map] at hi hj
    simp only [mapMoment] at hti htj
    rw [List.get_map] at hti htj
    simp only [mapOperation] at hti htj
    rw [touches_iff_mem] at hti htj
    simp only [List.mem_map] at hti htj
    obtain ⟨q0, hq0, hfq0⟩ := hti
    obtain ⟨q1, hq1, hfq1⟩ := htj
    have : q0 = q1 := hf (by rw [hfq0, hfq1])
    subst this
    exact hd i j hi hj hij q0 ((touches_iff_mem _ _).2 hq0)
      ((touches_iff_mem _ _).2 hq1)

/-- Witness for C10 at a concrete circuit and mapping. -/
theorem qubitMapper_preserves_witness :
    (qubitMapperOptimize (fun q => q + 1)
      ⟨[⟨[⟨.other 0, [0]⟩, ⟨.other 1, [1]⟩]⟩]⟩).moments.length = 1 := by
  have h := qubitMapper_preserves (fun q => q + 1)
    (fun a b h => by simpa using h)
    ⟨[⟨[⟨.other 0, [0]⟩, ⟨.other 1, [1]⟩]⟩]⟩
  exact h.1

/-! ### Claim C9: max-distance capping -/

/-- C9: a `next_moment_operating_on` call whose cap is at least
`len(moments) - start` returns the same result as the uncapped call, and a
`prev_moment_operating_on` call whose cap is at least the end index returns
the same result as the uncapped call: the cap is clamped before use. -/
theorem momentOperatingOn_cap_clamped (c : Circuit) (qs : List Nat)
    (s e M1 M2 : Nat) (h1 : c.moments.length - s ≤ M1) (h2 : e ≤ M2) :
    c.nextMomentOperatingOn qs s (some M1) = c.nextMomentOperatingOn qs s none ∧
    c.prevMomentOperatingOn qs e (some M2) = c.prevMomentOperatingOn qs e none := by
  constructor
  · simp only [Circuit.nextMomentOperatingOn, min_eq_right h1]
  · simp only [Circuit.prevMomentOperatingOn, min_eq_right h2]

/-- Witness for C9: the huge-cap calls of the repository tests agree with
the uncapped calls. -/
theorem momentOperatingOn_cap_clamped_witness :
    (Circuit.nextMomentOperatingOn ⟨[⟨[]⟩, ⟨[⟨.other 100, [0]⟩]⟩]⟩ [0] 0 (some (10 ^ 100)) =
      Circuit.nextMomentOperatingOn ⟨[⟨[]⟩, ⟨[⟨.other 100, [0]⟩]⟩]⟩ [0] 0 none) ∧
    (Circuit.prevMomentOperatingOn ⟨[⟨[]⟩, ⟨[⟨.other 100, [0]⟩]⟩]⟩ [0] 2 (some (10 ^ 100)) =
      Circuit.prevMomentOperatingOn ⟨[⟨[]⟩, ⟨[⟨.other 100, [0]⟩]⟩]⟩ [0] 2 none) :=
  momentOperatingOn_cap_clamped _ [0] 0 2 _ _
    (by norm_num) (by norm_num)

/-! ### Claim C6: insert bounds check and failure atomicity -/

/-- C6: `insert` fails with the IndexError exactly when the index is
negative or strictly greater than the moment count (insertion at the
length is allowed), and whenever it fails the timeline is left exactly as
it was. -/
theorem insert_fails_iff_out_of_range (c : Circuit) (index : Int)
    (opsL : List Operation) (strat : InsertStrategy) :
    ((c.insertM index opsL strat).2 = none ↔
      (index < 0 ∨ (c.moments.length : Int) < index)) ∧
    ((c.insertM index opsL strat).2 = none → (c.insertM index opsL strat).1 = c) := by
  unfold Circuit.insertM Circuit.insert
  by_cases h : index < 0 ∨ (c.moments.length : Int) < index
  · simp [h]
  · simp [h]

/-- Witness for C6: inserting at -1 into the empty timeline fails and
leaves the timeline untouched. -/
theorem insert_fails_iff_out_of_range_witness :
    ((Circuit.insertM ⟨[]⟩ (-1) [] .EARLIEST).2 = none) ∧
    ((Circuit.insertM ⟨[]⟩ (-1) [] .EARLIEST).1 = ⟨[]⟩) := by
  have h := insert_fails_iff_out_of_range ⟨[]⟩ (-1) [] .EARLIEST
  have hn : (Circuit.insertM ⟨[]⟩ (-1) [] .EARLIEST).2 = none :=
    h.1.2 (Or.inl (by norm_num))
  exact ⟨hn, h.2 hn⟩

/-! ### Claim C7: clear_operations_touching frame property -/

theorem filter_idem {α : Type} (p : α → Bool) (l : List α) :
    (l.filter p).filter p = l.filter p := by
  induction l with
  | nil => rfl
  | cons a l ih =>
    by_cases h : p a = true
    · simp [List.filter_cons, h, ih]
    · simp [List.filter_cons, h, ih]

theorem withoutTouching_idem (m : Moment) (qs : List Nat) :
    (m.withoutTouching qs).withoutTouching qs = m.withoutTouching qs := by
  simp [Moment.withoutTouching, filter_idem]

/-- One step of the clear fold. -/
def clearStep (qs : List Nat) (ms : List Moment) (k : Int) : List Moment :=
  if 0 ≤ k then
    match ms.get? k.toNat with
    | some m => ms.set k.toNat (m.withoutTouching qs)
    | none => ms
  else ms

theorem clearOperationsTouching_eq_fold (c : Circuit) (qs : List Nat)
    (I : List Int) :
    (c.clearOperationsTouching qs I).moments = I.foldl (clearStep qs) c.moments := by
  rfl

theorem clearStep_length (qs : List Nat) (ms : List Moment) (k : Int) :
    (clearStep qs ms k).length = ms.length := by
  unfold clearStep
  by_cases h : 0 ≤ k
  · simp only [if_pos h]
    cases hm : ms.get? k.toNat with
    | none => rfl
    | some m => simp
  · simp [h]

theorem clearFold_length (qs : List Nat) (I : List Int) (ms : List Moment) :
    (I.foldl (clearStep qs) ms).length = ms.length := by
  induction I generalizing ms with
  | nil => rfl
  | cons k I ih => rw [List.foldl_cons, ih, clearStep_length]

theorem clearStep_get? (qs : List Nat) (ms : List Moment) (k : Int) (j : Nat) :
    (clearStep qs ms k).get? j =
      if (j : Int) = k then (ms.get? j).map (fun m => m.withoutTouching qs)
      else ms.get? j := by
  unfold clearStep
  by_cases h : 0 ≤ k
  · simp only [if_pos h]
    cases hm : ms.get? k.toNat with
    | none =>
      by_cases hk : (j : Int) = k
      · have : k.toNat = j := by omega
        rw [this] at hm
        simp only [List.get?_eq_getElem?] at hm
        simp [hk, hm]
      · simp [hk]
    | some m =>
      by_cases hk : (j : Int) = k
      · have hjk : k.toNat = j := by omega
        subst hjk
        rw [if_pos hk, hm]
        simp only [Option.map_some']
        rw [List.get?_set_eq]
        have : k.toNat < ms.length := (List.get?_eq_some.1 hm).1
        simp [this]
      · rw [if_neg hk]
        apply List.get?_set_ne
        omega
  · have hk : ¬ ((j : Int) = k) := by omega
    simp [h, hk]

theorem clearFold_get? (qs : List Nat) (I : List Int) (ms : List Moment) (j : Nat) :
    (I.foldl (clearStep qs) ms).get? j =
      if (j : Int) ∈ I then (ms.get? j).map (fun m => m.withoutTouching qs)
      else ms.get? j := by
  induction I generalizing ms with
  | nil => simp
  | cons k I ih =>
    rw [List.foldl_cons, ih, clearStep_get?]
    by_cases hk : (j : Int) = k
    · subst hk
      by_cases hI : (j : Int) ∈ I
      · simp only [if_pos rfl, if_pos hI, if_pos (List.mem_cons_self ((j : Int)) I)]
        cases hm : ms.get? j with
        | none => simp only [List.get?_eq_getElem?] at hm; simp [hm]
        | some m =>
          simp only [List.get?_eq_getElem?] at hm
          simp [hm, withoutTouching_idem]
      · simp [hI]
    · by_cases hI : (j : Int) ∈ I
      · simp [hk, hI]
      · simp [hk, hI, List.mem_cons]

/-- C7: `clear_operations_touching(qs, I)` keeps the moment count, ignores
out-of-range indices, and rewrites exactly the in-range moments listed in
`I` by dropping precisely the operations touching a qubit of `qs`; every
other moment (and every untouching operation) is left unchanged. -/
theorem clearOperationsTouching_spec (c : Circuit) (qs : List Nat) (I : List Int) :
    (c.clearOperationsTouching qs I).moments.length = c.moments.length ∧
    ∀ j : Nat, (c.clearOperationsTouching qs I).moments.get? j =
      if (j : Int) ∈ I then
        (c.moments.get? j).map
          (fun m => ⟨m.ops.filter (fun op => !(qs.any (fun q => op.touches q)))⟩)
      else c.moments.get? j := by
  constructor
  · rw [clearOperationsTouching_eq_fold]
    exact clearFold_length qs I c.moments
  · intro j
    rw [clearOperationsTouching_eq_fold, clearFold_get? qs I c.moments j]
    rfl

/-! ### Claim C8: EARLIEST never yields more moments than NEW -/

theorem length_padTo (ms : List Moment) (p : Nat) :
    (padTo ms p).length = max ms.length (p + 1) := by
  simp only [padTo, List.length_append, List.length_replicate]
  omega

theorem length_placeInto (ms : List Moment) (p : Nat) (op : Operation) :
    (placeInto ms p op).length = max ms.length (p + 1) := by
  simp only [placeInto, List.length_set, length_padTo]

theorem prevAvail_le (ms : List Moment) (op : Operation) (k : Nat) :
    prevAvail ms op k ≤ k := by
  induction k with
  | zero => simp [prevAvail]
  | succ k ih =>
    unfold prevAvail
    by_cases h : canAddAt ms k op = true
    · simp only [if_pos h]
      omega
    · simp [h]

theorem length_pickNew (ms : List Moment) (k : Nat) (hk : k ≤ ms.length) :
    (pickNew ms k).1.length = ms.length + 1 ∧ (pickNew ms k).2 = k := by
  constructor
  · simp only [pickNew]
    rw [List.length_insertIdx]
    simp [hk]
  · rfl

/-- Bounds of one insertion step: the frontier stays within the list, the
list grows by at most one moment, and under NEW it grows by exactly one. -/
theorem insertStep_bounds (ms : List Moment) (k : Nat) (strat : InsertStrategy)
    (op : Operation) (hk : k ≤ ms.length) :
    ms.length ≤ (insertStep (ms, k, strat) op).1.length ∧
    (insertStep (ms, k, strat) op).1.length ≤ ms.length + 1 ∧
    (insertStep (ms, k, strat) op).2.1 ≤ (insertStep (ms, k, strat) op).1.length ∧
    (insertStep (ms, k, strat) op).2.2 =
      (if strat = InsertStrategy.NEW_THEN_INLINE then InsertStrategy.INLINE else strat) ∧
    (strat = InsertStrategy.NEW →
      (insertStep (ms, k, strat) op).1.length = ms.length + 1) := by
  have hnew : ∀ (hpick : pickIndex ms k op strat = pickNew ms k),
      (insertStep (ms, k, strat) op).1.length = ms.length + 1 ∧
      (insertStep (ms, k, strat) op).2.1 ≤ ms.length + 1 := by
    intro hpick
    have h1 := (length_pickNew ms k hk).1
    have h2 := (length_pickNew ms k hk).2
    constructor
    · simp only [insertStep, hpick, length_placeInto, h1, h2]
      omega
    · simp only [insertStep, hpick, h2]
      omega
  have main : ms.length ≤ (insertStep (ms, k, strat) op).1.length ∧
      (insertStep (ms, k, strat) op).1.length ≤ ms.length + 1 ∧
      (insertStep (ms, k, strat) op).2.1 ≤ (insertStep (ms, k, strat) op).1.length := by
    cases strat with
    | NEW =>
      have h := hnew rfl
      refine ⟨by omega, by omega, ?_⟩
      rw [h.1]
      exact h.2
    | NEW_THEN_INLINE =>
      have h := hnew rfl
      refine ⟨by omega, by omega, ?_⟩
      rw [h.1]
      exact h.2
    | INLINE =>
      simp only [insertStep, pickIndex, pickInline]
      by_cases hc : 1 ≤ k ∧ k - 1 < ms.length ∧ canAddAt ms (k - 1) op = true
      · simp only [if_pos hc, length_placeInto]
        omega
      · simp only [if_neg hc]
        have h1 := (length_pickNew ms k hk).1
        simp only [pickNew] at h1 ⊢
        rw [length_placeInto, h1]
        omega
    | EARLIEST =>
      simp only [insertStep, pickIndex, pickEarliest]
      by_cases hc : canAddAt ms k op = true
      · simp only [if_pos hc, length_placeInto]
        have hp := prevAvail_le ms op k
        omega
      · simp only [if_neg hc, pickInline]
        by_cases hc2 : 1 ≤ k ∧ k - 1 < ms.length ∧ canAddAt ms (k - 1) op = true
        · simp only [if_pos hc2, length_placeInto]
          omega
        · simp only [if_neg hc2]
          have h1 := (length_pickNew ms k hk).1
          simp only [pickNew] at h1 ⊢
          rw [length_placeInto, h1]
          omega
  refine ⟨main.1, main.2.1, main.2.2, rfl, ?_⟩
  intro hs
  subst hs
  exact (hnew rfl).1

/-- Folding insertion with NEW grows the moment list by exactly the number
of operations. -/
theorem foldl_insertStep_NEW (opsL : List Operation) (ms : List Moment) (k : Nat)
    (hk : k ≤ ms.length) :
    (opsL.foldl insertStep (ms, k, .NEW)).1.length = ms.length + opsL.length := by
  induction opsL generalizing ms k with
  | nil => simp
  | cons op rest ih =>
    rw [List.foldl_cons]
    have hb := insertStep_bounds ms k .NEW op hk
    have hstep : insertStep (ms, k, .NEW) op =
        ((insertStep (ms, k, .NEW) op).1, (insertStep (ms, k, .NEW) op).2.1, .NEW) := by
      have := hb.2.2.2.1
      simp only [reduceIte] at this
      exact Prod.ext rfl (Prod.ext rfl this)
    rw [hstep, ih _ _ hb.2.2.1, hb.2.2.2.2 rfl, List.length_cons]
    omega

/-- Folding insertion with EARLIEST grows the moment list by at most the
number of operations. -/
theorem foldl_insertStep_EARLIEST (opsL : List Operation) (ms : List Moment) (k : Nat)
    (hk : k ≤ ms.length) :
    (opsL.foldl insertStep (ms, k, .EARLIEST)).1.length ≤ ms.length + opsL.length := by
  induction opsL generalizing ms k with
  | nil => simp
  | cons op rest ih =>
    rw [List.foldl_cons]
    have hb := insertStep_bounds ms k .EARLIEST op hk
    have hstep : insertStep (ms, k, .EARLIEST) op =
        ((insertStep (ms, k, .EARLIEST) op).1, (insertStep (ms, k, .EARLIEST) op).2.1,
          .EARLIEST) := by
      have := hb.2.2.2.1
      simp only [reduceIte] at this
      exact Prod.ext rfl (Prod.ext rfl this)
    rw [hstep]
    calc (rest.foldl insertStep _).1.length
        ≤ (insertStep (ms, k, .EARLIEST) op).1.length + rest.length :=
          ih _ _ hb.2.2.1
      _ ≤ ms.length + (op :: rest).length := by
          have := hb.2.1
          simp only [List.length_cons]
          omega

/-- C8: over any operation stream, building the timeline with EARLIEST
yields at most as many moments as building it with NEW. -/
theorem earliest_moments_le_new (opsL : List Operation) :
    (Circuit.append ⟨[]⟩ opsL .EARLIEST).moments.length ≤
      (Circuit.append ⟨[]⟩ opsL .NEW).moments.length := by
  have hE : Circuit.append ⟨[]⟩ opsL .EARLIEST =
      ⟨(opsL.foldl insertStep ([], 0, .EARLIEST)).1⟩ := by
    simp [Circuit.append, Circuit.insertD, Circuit.insert]
  have hN : Circuit.append ⟨[]⟩ opsL .NEW =
      ⟨(opsL.foldl insertStep ([], 0, .NEW)).1⟩ := by
    simp [Circuit.append, Circuit.insertD, Circuit.insert]
  rw [hE, hN]
  have h1 := foldl_insertStep_EARLIEST opsL [] 0 (by simp)
  have h2 := foldl_insertStep_NEW opsL [] 0 (by simp)
  simp only [List.length_nil, Nat.zero_add] at h1 h2
  simpa [h2] using h1

/-! ### Claim C1: the drain-merge only fires for ExpZGate, not for every
known Z type -/

/-- The failing input for C1: an unparameterized ExpZ at index 0, an
unparameterized RotZ at index 1 (the drain found by the range scan, since
the unphaseable gate at index 2 forces draining at the previous Z), and an
unphaseable gate at index 2. -/
def rotzDrainCircuit : Circuit :=
  ⟨[⟨[⟨.expZ (.val (1 / 2)), [0]⟩]⟩,
    ⟨[⟨.rotZ (.val (1 / 2)), [0]⟩]⟩,
    ⟨[⟨.other 100, [0]⟩]⟩]⟩

/-- The same circuit after the ExpZ at index 0 has been cleared into the
accumulator by `_optimize_range`. -/
def rotzDrainCleared : Circuit :=
  ⟨[⟨[]⟩,
    ⟨[⟨.rotZ (.val (1 / 2)), [0]⟩]⟩,
    ⟨[⟨.other 100, [0]⟩]⟩]⟩

/-- C1 evaluated at the failing input: the range scan designates the
unparameterized RotZ gate (a KNOWN_Z_TYPES gate) at index 1 as the drain
of the range it hands to `_optimize_range`, the accumulated quarter turn
is not negligible, yet `_drain_into` leaves the drain gate untouched (its
ExpZGate-only branch does not fire), so the whole pass discards the phase
instead of merging it into the drain parameter: the claimed merged gate
with half-turns 3/2 never appears. -/
theorem drainInto_rotz_drain_drops_phase :
    (ejectQubitEv 0 0 rotzDrainCircuit).2 = [⟨0, 1, rotzDrainCircuit⟩] ∧
    isNegligibleTurn (1 / 4) 0 = false ∧
    (Circuit.operationAt rotzDrainCleared 0 1).map
      (fun op => op.gate.isKnownZ && !op.gate.halfTurns.isSym) = some true ∧
    drainInto 0 0 1 (1 / 4) rotzDrainCleared = rotzDrainCleared ∧
    ejectZOptimize 0 rotzDrainCircuit = rotzDrainCleared := by
  refine ⟨by decide, by decide, by decide, by decide, by decide⟩

/-! ### Claim C3: EjectZ is not idempotent (counterexample), but is
idempotent on single-qubit well-formed timelines (amended claim, proved
further below) -/

/-- The counterexample input for C3: qubit 0 and qubit 1 each carry an
unparameterized half-turn Z in moment 0, and moment 1 holds a phaseable
gate on qubit 1. -/
def nonIdemCircuit : Circuit :=
  ⟨[⟨[⟨.expZ (.val (1 / 2)), [0]⟩, ⟨.expZ (.val (1 / 2)), [1]⟩]⟩,
    ⟨[⟨.phaseable 0 0, [1]⟩]⟩]⟩

/-- C3 counterexample: running EjectZ twice does not reproduce the result
of running it once.  The first run drains qubit 1 into a freshly appended
final moment; the second run then migrates the trailing Z of qubit 0 into
that new moment, so the timelines differ (qubit 0 occupies moment 1 after
one run but not after two, hence the moments differ even as sets). -/
theorem ejectZ_not_idempotent :
    ejectZOptimize 0 (ejectZOptimize 0 nonIdemCircuit) ≠
      ejectZOptimize 0 nonIdemCircuit ∧
    (ejectZOptimize 0 nonIdemCircuit).operationAt 0 1 =
      some ⟨.expZ (.val (1 / 2)), [0]⟩ ∧
    (ejectZOptimize 0 (ejectZOptimize 0 nonIdemCircuit)).operationAt 0 1 = none := by
  refine ⟨by decide, by decide, by decide⟩

/-! ### Claim C2: the wall discipline of PointOptimizer -/

theorem wallsGet_set_self (w : Walls) (q v : Nat) :
    wallsGet (wallsSet w q v) q = v := by
  simp [wallsGet, wallsSet, List.find?]

theorem find_filter_ne (w : Walls) (q r : Nat) (hqr : q ≠ r) :
    (w.filter (fun p => p.1 != q)).find? (fun p => p.1 == r) =
      w.find? (fun p => p.1 == r) := by
  induction w with
  | nil => rfl
  | cons a w ih =>
    by_cases ha : a.1 = q
    · have h1 : (a.1 != q) = false := by simp [ha]
      have h2 : (a.1 == r) = false := by simp [ha]; omega
      simp [List.filter_cons, h1, List.find?, h2, ih]
    · have h1 : (a.1 != q) = true := by simp [ha]
      by_cases hr : a.1 = r
      · have h3 : ¬ (r = q) := fun h => hqr (h ▸ rfl)
        simp [List.filter_cons, h1, List.find?, hr, h3]
      · have h2 : (a.1 == r) = false := by simp [hr]
        simp [List.filter_cons, h1, List.find?, h2, ih]

theorem wallsGet_set_other (w : Walls) (q r v : Nat) (hqr : q ≠ r) :
    wallsGet (wallsSet w q v) r = wallsGet w r := by
  have h2 : (q == r) = false := by simp; omega
  simp only [wallsGet, wallsSet, List.find?, h2]
  rw [find_filter_ne w q r hqr]

theorem wallsGet_bump_mono (qs : List Nat) (w : Walls) (n q : Nat) :
    wallsGet w q ≤ wallsGet (wallsBump w qs n) q := by
  induction qs generalizing w with
  | nil => simp [wallsBump]
  | cons r qs ih =>
    simp only [wallsBump, List.foldl_cons]
    have step : wallsGet w q ≤ wallsGet (wallsSet w r (max (wallsGet w r) n)) q := by
      by_cases hqr : r = q
      · subst hqr
        rw [wallsGet_set_self]
        omega
      · rw [wallsGet_set_other w r q _ hqr]
    exact le_trans step (ih (wallsSet w r (max (wallsGet w r) n)))

theorem wallsGet_bump_ge (qs : List Nat) (w : Walls) (n : Nat) :
    ∀ q ∈ qs, n ≤ wallsGet (wallsBump w qs n) q := by
  induction qs generalizing w with
  | nil => simp
  | cons r qs ih =>
    intro q hq
    simp only [wallsBump, List.foldl_cons]
    rcases List.mem_cons.1 hq with h | h
    · subst h
      have h1 : n ≤ wallsGet (wallsSet w q (max (wallsGet w q) n)) q := by
        rw [wallsGet_set_self]
        omega
      exact le_trans h1 (wallsGet_bump_mono qs _ n q)
    · exact ih _ q h

/-- The two wall-discipline facts, as a predicate over trace events. -/
def wallGood : POEvent → Prop
  | .call i op w => ∀ q ∈ op.qubits, wallsGet w q ≤ i
  | .fire qs n w => ∀ q ∈ qs, n ≤ wallsGet w q

theorem poInner_wallGood (rule : Circuit → Nat → Operation → Option PointOptimizationSummary)
    (i : Nat) (opsL : List Operation) (c : Circuit) (w : Walls) (evs : List POEvent)
    (h : ∀ ev ∈ evs, wallGood ev) :
    ∀ ev ∈ (poInner rule i opsL c w evs).2.2, wallGood ev := by
  induction opsL generalizing c w evs with
  | nil => exact h
  | cons op rest ih =>
    unfold poInner
    by_cases h1 : op.qubits.any (fun q => decide (i < wallsGet w q)) = true
    · simp only [if_pos h1]
      exact ih c w evs h
    · simp only [if_neg h1]
      by_cases h2 : c.moments.length ≤ i
      · simp only [if_pos h2]
        exact ih c w evs h
      · simp only [if_neg h2]
        have hcallgood : wallGood (POEvent.call i op w) := by
          intro q hq
          by_contra hlt
          exact h1 (List.any_eq_true.2 ⟨q, hq, by simp; omega⟩)
        have hgood1 : ∀ ev ∈ evs ++ [POEvent.call i op w], wallGood ev := by
          intro ev hev
          rcases List.mem_append.1 hev with hl | hr
          · exact h ev hl
          · rcases List.mem_singleton.1 hr with rfl
            exact hcallgood
        by_cases h3 : (!(match c.moments.get? i with
                        | some m => m.ops.contains op
                        | none => false)) = true
        · simp only [if_pos h3]
          exact ih c w evs h
        · simp only [if_neg h3]
          cases hrule : rule c i op with
          | none =>
            exact ih c w _ hgood1
          | some s =>
            apply ih
            intro ev hev
            rcases List.mem_append.1 hev with hl | hr
            · exact hgood1 ev hl
            · rcases List.mem_singleton.1 hr with rfl
              intro q hq
              exact wallsGet_bump_ge s.clearQubits w _ q hq

theorem poOuter_wallGood (rule : Circuit → Nat → Operation → Option PointOptimizationSummary)
    (fuel i : Nat) (c : Circuit) (w : Walls) (evs : List POEvent)
    (h : ∀ ev ∈ evs, wallGood ev) :
    ∀ ev ∈ (poOuter rule fuel i c w evs).2, wallGood ev := by
  induction fuel generalizing i c w evs with
  | zero => exact h
  | succ fuel ih =>
    unfold poOuter
    by_cases hlen : i < c.moments.length
    · simp only [if_pos hlen]
      exact ih _ _ _ _ (poInner_wallGood rule i _ c w evs h)
    · simp only [if_neg hlen]
      exact h

/-- C2: during any run of the PointOptimizer driver with any rule,
`optimization_at` is only ever invoked on `(i, op)` when every qubit of
`op` has its wall at most `i` (never strictly greater), and immediately
after a directive fires, every qubit of its `clear_qubits` has its wall at
least the index returned by `insert_into_range`. -/
theorem pointOptimizer_wall_discipline
    (rule : Circuit → Nat → Operation → Option PointOptimizationSummary)
    (fuel : Nat) (c : Circuit) :
    (∀ i op w, POEvent.call i op w ∈ (pointOptimizerRun rule fuel c).2 →
      ∀ q ∈ op.qubits, wallsGet w q ≤ i) ∧
    (∀ qs n w, POEvent.fire qs n w ∈ (pointOptimizerRun rule fuel c).2 →
      ∀ q ∈ qs, n ≤ wallsGet w q) := by
  have h := poOuter_wallGood rule fuel 0 c [] [] (by intro ev hev; cases hev)
  constructor
  · intro i op w hev
    exact h _ hev
  · intro qs n w hev
    exact h _ hev

/-- The concrete rewrite rule used for the C2 witness: replace every
focused operation by itself over a one-moment span. -/
def ruleSelf : Circuit → Nat → Operation → Option PointOptimizationSummary :=
  fun _ _ op => some ⟨1, op.qubits, [op]⟩

/-- Witness for C2 at a concrete run: the single call event of the run
happened with wall 0 at index 0, and the single fire event raised the wall
of the cleared qubit to the returned index 1. -/
theorem pointOptimizer_wall_discipline_witness :
    wallsGet [] 0 ≤ 0 ∧ 1 ≤ wallsGet [(0, 1)] 0 := by
  constructor
  · exact (pointOptimizer_wall_discipline ruleSelf 2 ⟨[⟨[⟨.other 100, [0]⟩]⟩]⟩).1
      0 ⟨.other 100, [0]⟩ [] (by decide) 0 (by decide)
  · exact (pointOptimizer_wall_discipline ruleSelf 2 ⟨[⟨[⟨.other 100, [0]⟩]⟩]⟩).2
      [0] 1 [(0, 1)] (by decide) 0 (by decide)

/-! ### Effect lemmas for clearing and in-place INLINE insertion -/

theorem clear_length (c : Circuit) (qs : List Nat) (I : List Int) :
    (c.clearOperationsTouching qs I).moments.length = c.moments.length := by
  rw [clearOperationsTouching_eq_fold]
  exact clearFold_length qs I c.moments

theorem clear_single_get? (c : Circuit) (qs : List Nat) (j k : Nat) :
    (c.clearOperationsTouching qs [(j : Int)]).moments.get? k =
      if k = j then (c.moments.get? k).map (fun m => m.withoutTouching qs)
      else c.moments.get? k := by
  rw [clearOperationsTouching_eq_fold]
  rw [clearFold_get?]
  by_cases h : k = j
  · subst h
    simp
  · have h2 : ¬ ((k : Int) ∈ [(j : Int)]) := by
      simp
      omega
    simp [h, h2]

theorem canAdd_withoutTouching (m : Moment) (qs qs2 : List Nat) (g : Gate)
    (h : ∀ x ∈ qs2, x ∈ qs) :
    (m.withoutTouching qs).canAdd ⟨g, qs2⟩ = true := by
  simp only [Moment.canAdd, Moment.touchesAny, Moment.withoutTouching,
    Bool.not_eq_true']
  rw [List.any_eq_false]
  intro op hop
  rw [List.mem_filter] at hop
  have hop2 := hop.2
  rw [Bool.not_eq_true'] at hop2
  rw [List.any_eq_false] at hop2
  intro hcon
  obtain ⟨x, hx, htouch⟩ := List.any_eq_true.1 hcon
  exact hop2 x (h x hx) htouch

theorem insertD_inplace (c : Circuit) (j : Nat) (op2 : Operation)
    (hj : j < c.moments.length)
    (hm : ∀ m, c.moments.get? j = some m → m.canAdd op2 = true) :
    (c.insertD (j + 1) [op2] .INLINE).moments =
      c.moments.set j ⟨((c.moments.get? j).getD ⟨[]⟩).ops ++ [op2]⟩ := by
  have hget : c.moments.get? j = some (c.moments.get ⟨j, hj⟩) := List.get?_eq_get hj
  have hbound : ¬ (((j + 1 : Nat) : Int) < 0 ∨
      (c.moments.length : Int) < ((j + 1 : Nat) : Int)) := by
    push_neg
    constructor
    · omega
    · omega
  unfold Circuit.insertD Circuit.insert
  rw [if_neg hbound]
  simp only [List.foldl_cons, List.foldl_nil]
  have htn : (((j + 1 : Nat) : Int)).toNat = j + 1 := by omega
  simp only [insertStep, pickIndex, htn]
  have hinline : pickInline c.moments (j + 1) op2 = (c.moments, j) := by
    unfold pickInline
    rw [if_pos]
    · simp
    · refine ⟨by omega, by simpa using hj, ?_⟩
      unfold canAddAt
      rw [Bool.or_eq_true]
      right
      simp only [Nat.add_sub_cancel, hget]
      exact hm _ hget
  rw [hinline]
  simp only [placeInto, padTo]
  have hpad : j + 1 - c.moments.length = 0 := by omega
  rw [hpad]
  simp

/-- The combined effect of clearing qubits at index `j` and re-inserting a
single operation on a subset of those qubits with INLINE at `j + 1`: the
operation lands back in moment `j`, every other moment is untouched, and
the length is unchanged. -/
theorem clear_insert_effect (c : Circuit) (qs qs2 : List Nat) (g : Gate) (j : Nat)
    (hj : j < c.moments.length) (hsub : ∀ x ∈ qs2, x ∈ qs) :
    ((c.clearOperationsTouching qs [(j : Int)]).insertD (j + 1)
        [⟨g, qs2⟩] .INLINE).moments.length = c.moments.length ∧
    (∀ k, k ≠ j →
      ((c.clearOperationsTouching qs [(j : Int)]).insertD (j + 1)
        [⟨g, qs2⟩] .INLINE).moments.get? k = c.moments.get? k) ∧
    (∀ m, c.moments.get? j = some m →
      ((c.clearOperationsTouching qs [(j : Int)]).insertD (j + 1)
        [⟨g, qs2⟩] .INLINE).moments.get? j =
        some ⟨(m.withoutTouching qs).ops ++ [⟨g, qs2⟩]⟩) := by
  have hlen1 : (c.clearOperationsTouching qs [(j : Int)]).moments.length =
      c.moments.length := clear_length c qs _
  have hj1 : j < (c.clearOperationsTouching qs [(j : Int)]).moments.length := by
    omega
  have hget1 : (c.clearOperationsTouching qs [(j : Int)]).moments.get? j =
      (c.moments.get? j).map (fun m => m.withoutTouching qs) := by
    rw [clear_single_get?]
    simp
  have hcan : ∀ m, (c.clearOperationsTouching qs [(j : Int)]).moments.get? j = some m →
      m.canAdd ⟨g, qs2⟩ = true := by
    intro m hm
    rw [hget1] at hm
    cases hc : c.moments.get? j with
    | none => rw [hc] at hm; cases hm
    | some m0 =>
      rw [hc] at hm
      simp only [Option.map_some'] at hm
      cases hm
      exact canAdd_withoutTouching m0 qs qs2 g hsub
  have heq := insertD_inplace (c.clearOperationsTouching qs [(j : Int)]) j
    ⟨g, qs2⟩ hj1 hcan
  refine ⟨?_, ?_, ?_⟩
  · rw [heq]
    simp [hlen1]
  · intro k hk
    rw [heq]
    rw [List.get?_set_ne _ _ (fun h => hk h.symm)]
    rw [clear_single_get?]
    simp [hk]
  · intro m hm
    rw [heq]
    have hjlt : j < (c.clearOperationsTouching qs [(j : Int)]).moments.length := hj1
    rw [List.get?_set_eq]
    have : ((c.clearOperationsTouching qs [(j : Int)]).moments.get? j).getD ⟨[]⟩ =
        m.withoutTouching qs := by
      rw [hget1, hm]
      rfl
    rw [this]
    simp only [List.get?_eq_getElem?] at hget1 hm ⊢
    have hlt : j < (c.clearOperationsTouching qs [(j : Int)]).moments.length := hj1
    simp [hlt]

theorem operationAt_some_lt (c : Circuit) (q i : Nat) (op : Operation)
    (h : c.operationAt q i = some op) : i < c.moments.length := by
  unfold Circuit.operationAt at h
  cases hg : c.moments.get? i with
  | none => rw [hg] at h; cases h
  | some m => exact (List.get?_eq_some.1 hg).1

theorem isPhaseable_not_knownZ (g : Gate) (h : g.isPhaseable = true) :
    g.isKnownZ = false := by
  cases g <;> simp_all [Gate.isPhaseable, Gate.isKnownZ]

theorem optimizeRangeStep_length (q : Nat) (st : Circuit × ℚ) (i : Nat) :
    (optimizeRangeStep q st i).1.moments.length = st.1.moments.length := by
  rcases st with ⟨c, lost⟩
  simp only [optimizeRangeStep]
  cases hop : c.operationAt q i with
  | none => simp [hop]
  | some op =>
    simp only [hop]
    by_cases hz : op.gate.isKnownZ = true
    · simp only [if_pos hz]
      exact clear_length c [q] _
    · simp only [if_neg hz]
      by_cases hp : op.gate.isPhaseable = true
      · simp only [if_pos hp]
        exact (clear_insert_effect c op.qubits op.qubits
          (op.gate.phaseBy (-lost) (op.qubits.indexOf q)) i
          (operationAt_some_lt c q i op hop) (fun x hx => hx)).1
      · simp [hp]

theorem optimizeRangeFold_length (q : Nat) (l : List Nat) (c : Circuit) (acc : ℚ) :
    ((l.foldl (optimizeRangeStep q) (c, acc)).1).moments.length = c.moments.length := by
  induction l generalizing c acc with
  | nil => rfl
  | cons i l ih =>
    have h1 := ih (optimizeRangeStep q (c, acc) i).1 (optimizeRangeStep q (c, acc) i).2
    rw [Prod.mk.eta] at h1
    rw [List.foldl_cons, h1]
    exact optimizeRangeStep_length q (c, acc) i

theorem drainInto_length (tol : ℚ) (q drain : Nat) (acc : ℚ) (c : Circuit)
    (h : drain ≠ c.moments.length) :
    (drainInto tol q drain acc c).moments.length = c.moments.length := by
  unfold drainInto
  by_cases hneg : isNegligibleTurn acc tol = true
  · simp [hneg]
  · simp only [if_neg hneg, if_neg h]
    cases hop : c.operationAt q drain with
    | none => rfl
    | some op =>
      simp only
      by_cases hz : op.gate.isExpZ = true
      · simp only [if_pos hz]
        exact (clear_insert_effect c [q] [q]
          (.expZ (.val (op.gate.halfTurns.value + acc * 2))) drain
          (operationAt_some_lt c q drain op hop) (fun x hx => hx)).1
      · simp [hz]

theorem optimizeRange_length (tol : ℚ) (q start drain : Nat) (c : Circuit)
    (h : drain < c.moments.length) :
    (optimizeRange tol q start drain c).moments.length = c.moments.length := by
  unfold optimizeRange
  have hfold := optimizeRangeFold_length q (List.range' start (drain - start)) c 0
  rw [drainInto_length _ _ _ _ _ (by omega)]
  exact hfold

/-! ### Claim C5: drain ranges never contain a symbol-parameterized Z -/

/-- Safety condition at one position of one circuit: any operation found
there on the qubit that is of a known Z type carries a numeric (non-Symbol)
half-turns parameter. -/
def okAt (c : Circuit) (q j : Nat) : Prop :=
  ∀ op, c.operationAt q j = some op →
    op.gate.isKnownZ = true → op.gate.halfTurns.isSym = false

/-- Safety of one emitted drain range (relative to the circuit state at
emission time). -/
def rangeOk (q : Nat) (ev : RangeEv) : Prop :=
  ∀ j, ev.start ≤ j → j < ev.drain → okAt ev.circ q j

theorem ejectGo_rangeOk (tol : ℚ) (q : Nat) :
    ∀ (m i : Nat) (c : Circuit) (startZ prevZ : Option Nat) (evs : List RangeEv),
    c.moments.length = i + m →
    (∀ s, startZ = some s → ∀ j, s ≤ j → j < i → okAt c q j) →
    (∀ p, prevZ = some p → p < i) →
    (∀ ev ∈ evs, rangeOk q ev) →
    ∀ ev ∈ (ejectGo tol q (List.range' i m) c startZ prevZ evs).2, rangeOk q ev := by
  intro m
  induction m with
  | zero =>
    intro i c startZ prevZ evs hlen hstart hprev hevs
    simp only [List.range']
    cases startZ with
    | none => exact hevs
    | some s =>
      simp only [ejectGo]
      intro ev hev
      rcases List.mem_append.1 hev with hl | hr
      · exact hevs ev hl
      · rcases List.mem_singleton.1 hr with rfl
        intro j hsj hjd
        exact hstart s rfl j hsj (by simp at hjd; omega)
  | succ m ih =>
    intro i c startZ prevZ evs hlen hstart hprev hevs
    have hrange : List.range' i (m + 1) = i :: List.range' (i + 1) m := by
      simp [List.range'_succ]
    rw [hrange]
    simp only [ejectGo]
    cases hop : c.operationAt q i with
    | none =>
      apply ih (i + 1) c startZ prevZ evs (by omega) ?_ ?_ hevs
      · intro s hs j hsj hji
        by_cases hji2 : j < i
        · exact hstart s hs j hsj hji2
        · have : j = i := by omega
          subst this
          intro op hop2
          rw [hop] at hop2
          cases hop2
      · intro p hp
        exact Nat.lt_succ_of_lt (hprev p hp)
    | some op =>
      cases hsz : startZ with
      | none =>
        by_cases htrig : (op.gate.isKnownZ && !op.gate.halfTurns.isSym) = true
        · simp only [if_pos htrig]
          apply ih (i + 1) c (some i) none evs (by omega) ?_ (by intro p hp; cases hp) hevs
          intro s hs j hsj hji
          cases hs
          have : j = i := by omega
          subst this
          intro op2 hop2
          rw [hop] at hop2
          cases hop2
          rw [Bool.and_eq_true] at htrig
          intro _
          rw [Bool.not_eq_true'] at htrig
          exact htrig.2
        · simp only [if_neg htrig]
          apply ih (i + 1) c none prevZ evs (by omega)
            (by intro s hs; cases hs) ?_ hevs
          intro p hp
          exact Nat.lt_succ_of_lt (hprev p hp)
      | some s =>
        have hstart2 : ∀ j, s ≤ j → j < i → okAt c q j := hstart s hsz
        by_cases hmeas : op.gate.isMeas = true
        · simp only [if_pos hmeas]
          apply ih (i + 1) (optimizeRange tol q s i c) none prevZ _ ?_
            (by intro s2 hs2; cases hs2) ?_ ?_
          · rw [optimizeRange_length tol q s i c (by omega)]
            omega
          · intro p hp
            exact Nat.lt_succ_of_lt (hprev p hp)
          · intro ev hev
            rcases List.mem_append.1 hev with hl | hr
            · exact hevs ev hl
            · rcases List.mem_singleton.1 hr with rfl
              intro j hsj hji
              exact hstart2 j hsj hji
        · simp only [if_neg hmeas]
          by_cases htrig : (op.gate.isKnownZ && !op.gate.halfTurns.isSym) = true
          · simp only [if_pos htrig]
            apply ih (i + 1) c (some s) (some i) evs (by omega) ?_
              (by intro p hp; cases hp; omega) hevs
            intro s2 hs2 j hsj hji
            cases hs2
            by_cases hji2 : j < i
            · exact hstart2 j hsj hji2
            · have : j = i := by omega
              subst this
              intro op2 hop2
              rw [hop] at hop2
              cases hop2
              rw [Bool.and_eq_true] at htrig
              intro _
              rw [Bool.not_eq_true'] at htrig
              exact htrig.2
          · simp only [if_neg htrig]
            by_cases hph : (!op.gate.isPhaseable) = true
            · simp only [if_pos hph]
              cases hpz : prevZ with
              | some p =>
                have hpi : p < i := hprev p hpz
                apply ih (i + 1) (optimizeRange tol q s p c) none (some p) _ ?_
                  (by intro s2 hs2; cases hs2) ?_ ?_
                · rw [optimizeRange_length tol q s p c (by omega)]
                  omega
                · intro p2 hp2
                  cases hp2
                  omega
                · intro ev hev
                  rcases List.mem_append.1 hev with hl | hr
                  · exact hevs ev hl
                  · rcases List.mem_singleton.1 hr with rfl
                    intro j hsj hji
                    have hji2 : j < p := hji
                    exact hstart2 j hsj (by omega)
              | none =>
                apply ih (i + 1) c none none evs (by omega)
                  (by intro s2 hs2; cases hs2)
                  (by intro p hp; cases hp) hevs
            · simp only [if_neg hph]
              apply ih (i + 1) c (some s) prevZ evs (by omega) ?_ ?_ hevs
              · intro s2 hs2 j hsj hji
                cases hs2
                by_cases hji2 : j < i
                · exact hstart2 j hsj hji2
                · have : j = i := by omega
                  subst this
                  intro op2 hop2
                  rw [hop] at hop2
                  cases hop2
                  intro hkz
                  rw [Bool.not_eq_true', Bool.not_eq_false] at hph
                  rw [isPhaseable_not_knownZ _ hph] at hkz
                  cases hkz
              · intro p hp
                exact Nat.lt_succ_of_lt (hprev p hp)

/-- C5: for every drain range handed to `_optimize_range` by the range
scan of EjectZ, every operation inside the half-open range whose gate is a
known Z type has a non-Symbol half-turns parameter, so the arithmetic
`op.gate.half_turns / 2` of the removal branch never receives a Symbol. -/
theorem ejectZ_no_symbol_in_ranges (tol : ℚ) (q : Nat) (c : Circuit)
    (ev : RangeEv) (hev : ev ∈ (ejectQubitEv tol q c).2)
    (j : Nat) (hs : ev.start ≤ j) (hd : j < ev.drain)
    (op : Operation) (hop : ev.circ.operationAt q j = some op)
    (hz : op.gate.isKnownZ = true) :
    op.gate.halfTurns.isSym = false := by
  have h := ejectGo_rangeOk tol q c.moments.length 0 c none none []
    (by omega)
    (by intro s hs2; cases hs2)
    (by intro p hp; cases hp)
    (by intro ev2 hev2; cases hev2)
  unfold ejectQubitEv at hev
  rw [List.range_eq_range'] at hev
  exact h ev hev j hs hd op hop hz

/-- Witness for C5: the range found on the circuit `[Z(1/2)], [measure]`
contains the Z at index 0, which indeed has a numeric parameter. -/
theorem ejectZ_no_symbol_in_ranges_witness :
    (Gate.expZ (.val (1 / 2))).halfTurns.isSym = false :=
  ejectZ_no_symbol_in_ranges 0 0
    ⟨[⟨[⟨.expZ (.val (1 / 2)), [0]⟩]⟩, ⟨[⟨.meas 0, [0]⟩]⟩]⟩
    ⟨0, 1, ⟨[⟨[⟨.expZ (.val (1 / 2)), [0]⟩]⟩, ⟨[⟨.meas 0, [0]⟩]⟩]⟩⟩
    (by decide) 0 (by decide) (by decide)
    ⟨.expZ (.val (1 / 2)), [0]⟩ (by decide) (by decide)

/-! ### Claim C4: two Zs then a measurement drain fully -/

/-- The operations of moment `j` that act on qubit `q`. -/
def qOps (c : Circuit) (q j : Nat) : List Operation :=
  ((c.moments.get? j).map (fun m => m.ops.filter (fun op => op.touches q))).getD []

theorem find?_of_filter_nil {α : Type} (p : α → Bool) (l : List α)
    (h : l.filter p = []) : l.find? p = none := by
  induction l with
  | nil => rfl
  | cons a l ih =>
    rw [List.filter_cons] at h
    by_cases hp : p a = true
    · rw [if_pos hp] at h
      cases h
    · rw [if_neg hp] at h
      rw [List.find?_cons_of_neg _ (by simp [hp])]
      exact ih h

theorem find?_of_filter_single {α : Type} (p : α → Bool) (l : List α) (a : α)
    (h : l.filter p = [a]) : l.find? p = some a := by
  induction l with
  | nil => simp at h
  | cons b l ih =>
    rw [List.filter_cons] at h
    by_cases hp : p b = true
    · rw [if_pos hp] at h
      obtain ⟨hb, hnil⟩ := List.cons_eq_cons.mp h
      subst hb
      exact List.find?_cons_of_pos _ hp
    · rw [if_neg hp] at h
      rw [List.find?_cons_of_neg _ (by simp [hp])]
      exact ih h

theorem operationAt_of_qOps_nil (c : Circuit) (q j : Nat)
    (h : qOps c q j = []) : c.operationAt q j = none := by
  unfold qOps at h
  unfold Circuit.operationAt
  cases hg : c.moments.get? j with
  | none => rfl
  | some m =>
    rw [hg] at h
    simp only [Option.map_some', Option.getD_some] at h
    exact find?_of_filter_nil _ _ h

theorem operationAt_of_qOps_single (c : Circuit) (q j : Nat) (z : Operation)
    (h : qOps c q j = [z]) : c.operationAt q j = some z := by
  unfold qOps at h
  unfold Circuit.operationAt
  cases hg : c.moments.get? j with
  | none => rw [hg] at h; cases h
  | some m =>
    rw [hg] at h
    simp only [Option.map_some', Option.getD_some] at h
    exact find?_of_filter_single _ _ _ h

theorem knownZ_not_meas (g : Gate) (h : g.isKnownZ = true) : g.isMeas = false := by
  cases g <;> simp_all [Gate.isKnownZ, Gate.isMeas]

theorem meas_not_knownZ (g : Gate) (h : g.isMeas = true) : g.isKnownZ = false := by
  cases g <;> simp_all [Gate.isKnownZ, Gate.isMeas]

theorem meas_not_expZ (g : Gate) (h : g.isMeas = true) : g.isExpZ = false := by
  cases g <;> simp_all [Gate.isExpZ, Gate.isMeas]

theorem filter_clear_comm (q : Nat) (qs : List Nat) (l : List Operation)
    (h : ∀ op ∈ l, op.touches q = true → ∀ x ∈ qs, op.touches x = false) :
    (l.filter (fun op => !(qs.any (fun x => op.touches x)))).filter
        (fun op => op.touches q) =
      l.filter (fun op => op.touches q) := by
  induction l with
  | nil => rfl
  | cons a l ih =>
    have ha := h a (List.mem_cons_self a l)
    have hrest : ∀ op ∈ l, op.touches q = true → ∀ x ∈ qs, op.touches x = false :=
      fun op hop => h op (List.mem_cons_of_mem a hop)
    by_cases hqs : (qs.any fun x => a.touches x) = true
    · have htq : a.touches q = false := by
        by_contra hc
        rw [Bool.not_eq_false] at hc
        obtain ⟨x, hx, hax⟩ := List.any_eq_true.1 hqs
        rw [ha hc x hx] at hax
        cases hax
      simp [List.filter_cons, hqs, htq, ih hrest]
    · have hqs2 : (qs.any fun x => a.touches x) = false := by
        rwa [Bool.not_eq_true] at hqs
      by_cases htq : a.touches q = true
      · simp [List.filter_cons, hqs2, htq, ih hrest]
      · simp [List.filter_cons, hqs2, htq, ih hrest]

/-- Filtering for qubit `q` commutes with clearing other qubits, provided
every operation touching `q` in the moment touches none of the cleared
qubits. -/
theorem filter_withoutTouching_comm (m : Moment) (q : Nat) (qs : List Nat)
    (h : ∀ op ∈ m.ops, op.touches q = true → ∀ x ∈ qs, op.touches x = false) :
    (m.withoutTouching qs).ops.filter (fun op => op.touches q) =
      m.ops.filter (fun op => op.touches q) := by
  unfold Moment.withoutTouching
  exact filter_clear_comm q qs m.ops h

/-- The per-moment operations on qubit `q` follow the pattern `F`. -/
def qPattern (c : Circuit) (q : Nat) (F : Nat → List Operation) : Prop :=
  ∀ j, qOps c q j = F j

theorem qPattern_oob (c : Circuit) (q : Nat) (F : Nat → List Operation)
    (hp : qPattern c q F) (j : Nat) (hj : c.moments.length ≤ j) : F j = [] := by
  have := hp j
  unfold qOps at this
  rw [List.get?_eq_none.2 hj] at this
  exact this.symm

theorem touches_only_q (op : Operation) (q : Nat) (hq : op.qubits = [q]) (x : Nat) :
    op.touches x = true → x = q := by
  intro h
  rw [touches_iff_mem, hq] at h
  simpa using h

/-- Clearing qubits that do not include `q` never changes the `q`
operations, when all `q` operations act on `q` alone. -/
theorem clear_preserves_qPattern (c : Circuit) (q : Nat) (F : Nat → List Operation)
    (qs : List Nat) (k : Nat) (hq : q ∉ qs)
    (hp : qPattern c q F) (hF : ∀ j op, op ∈ F j → op.qubits = [q]) :
    qPattern (c.clearOperationsTouching qs [(k : Int)]) q F := by
  intro j
  have hcs := clear_single_get? c qs k j
  by_cases hjk : j = k
  · subst hjk
    rw [if_pos rfl] at hcs
    cases hg : c.moments.get? j with
    | none =>
      rw [hg] at hcs
      unfold qOps
      rw [hcs]
      have := hp j
      unfold qOps at this
      rw [hg] at this
      exact this
    | some m =>
      rw [hg] at hcs
      unfold qOps
      rw [hcs]
      simp only [Option.map_some', Option.getD_some]
      rw [filter_withoutTouching_comm]
      · have := hp j
        unfold qOps at this
        rw [hg] at this
        exact this
      · intro op hop htq x hx
        have hopF : op ∈ F j := by
          have := hp j
          unfold qOps at this
          rw [hg] at this
          simp only [Option.map_some', Option.getD_some] at this
          rw [← this]
          rw [List.mem_filter]
          exact ⟨hop, htq⟩
        have hq1 := hF j op hopF
        by_contra hc
        rw [Bool.not_eq_false] at hc
        have := touches_only_q op q hq1 x hc
        subst this
        exact hq hx
  · rw [if_neg hjk] at hcs
    unfold qOps
    rw [hcs]
    exact hp j

/-- Clearing at `k` then re-inserting one operation on qubits not
containing `q` INLINE at `k + 1` never changes the `q` operations. -/
theorem clear_insert_preserves_qPattern (c : Circuit) (q : Nat)
    (F : Nat → List Operation) (qs qs2 : List Nat) (g : Gate) (k : Nat)
    (hk : k < c.moments.length) (hsub : ∀ x ∈ qs2, x ∈ qs)
    (hq : q ∉ qs) (hq2 : q ∉ qs2)
    (hp : qPattern c q F) (hF : ∀ j op, op ∈ F j → op.qubits = [q]) :
    qPattern ((c.clearOperationsTouching qs [(k : Int)]).insertD (k + 1)
      [⟨g, qs2⟩] .INLINE) q F := by
  have heff := clear_insert_effect c qs qs2 g k hk hsub
  intro j
  by_cases hjk : j = k
  · subst hjk
    cases hg : c.moments.get? j with
    | none =>
      have := List.get?_eq_none.1 hg
      omega
    | some m =>
      have hj2 := heff.2.2 m hg
      unfold qOps
      rw [hj2]
      simp only [Option.map_some', Option.getD_some]
      rw [List.filter_append]
      have hnew : (([⟨g, qs2⟩] : List Operation).filter (fun op => op.touches q)) = [] := by
        simp only [List.filter]
        have : Operation.touches ⟨g, qs2⟩ q = false := by
          rw [← Bool.not_eq_true, touches_iff_mem]
          simpa using hq2
        rw [this]
      rw [hnew, List.append_nil]
      unfold Moment.withoutTouching
      simp only
      rw [filter_clear_comm]
      · have := hp j
        unfold qOps at this
        rw [hg] at this
        simp only [Option.map_some', Option.getD_some] at this
        exact this
      · intro op hop htq x hx
        have hopF : op ∈ F j := by
          have := hp j
          unfold qOps at this
          rw [hg] at this
          simp only [Option.map_some', Option.getD_some] at this
          rw [← this, List.mem_filter]
          exact ⟨hop, htq⟩
        have hq1 := hF j op hopF
        by_contra hc
        rw [Bool.not_eq_false] at hc
        have := touches_only_q op q hq1 x hc
        subst this
        exact hq hx
  · unfold qOps
    rw [heff.2.1 j hjk]
    exact hp j

theorem insertIdx_self_length {α : Type} (l : List α) (a : α) :
    l.insertIdx l.length a = l ++ [a] := by
  induction l with
  | nil => rfl
  | cons b l ih => simp [List.insertIdx_succ_cons, ih]

theorem set_concat_length {α : Type} (l : List α) (a b : α) :
    (l ++ [a]).set l.length b = l ++ [b] := by
  induction l with
  | nil => rfl
  | cons x l ih => simp [List.set_cons_succ, ih]

/-- The effect of appending a single operation with INLINE: it joins the
final moment when that moment has no conflict, otherwise it opens a fresh
final moment. -/
theorem append_single_inline (c : Circuit) (op2 : Operation) :
    (c.append [op2] .INLINE).moments =
      if 1 ≤ c.moments.length ∧ canAddAt c.moments (c.moments.length - 1) op2 = true then
        c.moments.set (c.moments.length - 1)
          ⟨((c.moments.get? (c.moments.length - 1)).getD ⟨[]⟩).ops ++ [op2]⟩
      else c.moments ++ [⟨[op2]⟩] := by
  unfold Circuit.append Circuit.insertD Circuit.insert
  rw [if_neg (by push_neg; omega)]
  simp only [List.foldl_cons, List.foldl_nil, insertStep, pickIndex]
  have htn : ((c.moments.length : Int)).toNat = c.moments.length := by omega
  rw [htn]
  unfold pickInline
  by_cases hcond : 1 ≤ c.moments.length ∧ c.moments.length - 1 < c.moments.length ∧
      canAddAt c.moments (c.moments.length - 1) op2 = true
  · rw [if_pos hcond]
    rw [if_pos ⟨hcond.1, hcond.2.2⟩]
    simp only [placeInto, padTo]
    have hpadz : c.moments.length - 1 + 1 - c.moments.length = 0 := by omega
    rw [hpadz]
    simp
  · have hcond2 : ¬ (1 ≤ c.moments.length ∧
        canAddAt c.moments (c.moments.length - 1) op2 = true) := by
      intro hcon
      exact hcond ⟨hcon.1, by omega, hcon.2⟩
    rw [if_neg hcond, if_neg hcond2]
    simp only [pickNew, insertIdx_self_length]
    simp only [placeInto, padTo]
    have hlen2 : (c.moments ++ [(⟨[]⟩ : Moment)]).length = c.moments.length + 1 := by
      simp
    have hpadz : c.moments.length + 1 - (c.moments ++ [(⟨[]⟩ : Moment)]).length = 0 := by
      simp
    rw [hpadz]
    simp only [List.replicate, List.append_nil]
    rw [List.get?_concat_length]
    simp only [Option.getD_some]
    have := set_concat_length c.moments (⟨[]⟩ : Moment) ⟨[] ++ [op2]⟩
    simp only [List.nil_append] at this
    exact this

/-- Appending one operation not touching `q` with INLINE never changes the
`q` operations. -/
theorem append_preserves_qPattern (c : Circuit) (q : Nat) (F : Nat → List Operation)
    (op2 : Operation) (hq : op2.touches q = false)
    (hp : qPattern c q F) :
    qPattern (c.append [op2] .INLINE) q F := by
  intro j
  unfold qOps
  rw [append_single_inline]
  by_cases hcond : 1 ≤ c.moments.length ∧
      canAddAt c.moments (c.moments.length - 1) op2 = true
  · rw [if_pos hcond]
    by_cases hj : j = c.moments.length - 1
    · have hjlt : j < c.moments.length := by omega
      rw [← hj]
      rw [List.get?_set_eq]
      have hsome : j < c.moments.length := hjlt
      cases hg : c.moments.get? j with
      | none =>
        have := List.get?_eq_none.1 hg
        omega
      | some m =>
        simp only [hg, Option.map_eq_map, Option.map_some', Option.getD_some]
        rw [List.filter_append]
        have hnew : (([op2] : List Operation).filter (fun op => op.touches q)) = [] := by
          simp [List.filter, hq]
        rw [hnew, List.append_nil]
        have := hp j
        unfold qOps at this
        rw [hg] at this
        simp only [Option.map_some', Option.getD_some] at this
        exact this
    · rw [List.get?_set_ne _ _ (fun h => hj h.symm)]
      exact hp j
  · rw [if_neg hcond]
    by_cases hj : j < c.moments.length
    · rw [List.get?_append hj]
      exact hp j
    · by_cases hj2 : j = c.moments.length
      · rw [hj2, List.get?_concat_length]
        simp only [Option.map_some', Option.getD_some]
        have hF0 : F j = [] := qPattern_oob c q F hp j (by omega)
        rw [← hj2, hF0]
        simp [List.filter, hq]
      · have : (c.moments ++ [(⟨[op2]⟩ : Moment)]).length ≤ j := by
          simp
          omega
        rw [List.get?_eq_none.2 this]
        simp only [Option.map_none', Option.getD_none]
        exact (qPattern_oob c q F hp j (by omega)).symm

theorem operationAt_mem (c : Circuit) (r i : Nat) (op : Operation)
    (h : c.operationAt r i = some op) :
    ∃ m, c.moments.get? i = some m ∧ op ∈ m.ops ∧ op.touches r = true := by
  unfold Circuit.operationAt at h
  cases hg : c.moments.get? i with
  | none => rw [hg] at h; cases h
  | some m =>
    rw [hg] at h
    have h2 : m.ops.find? (fun op => op.touches r) = some op := h
    refine ⟨m, rfl, List.mem_of_find?_eq_some h2, ?_⟩
    have h3 := List.find?_some h2
    simpa using h3

/-- An operation of the scanned foreign qubit `r` cannot touch `q` when
the `q` operations all act on `q` alone. -/
theorem foreign_op_not_touching (c : Circuit) (q r i : Nat) (op : Operation)
    (F : Nat → List Operation) (hrq : r ≠ q)
    (hp : qPattern c q F) (hF : ∀ j op, op ∈ F j → op.qubits = [q])
    (h : c.operationAt r i = some op) : op.touches q = false := by
  obtain ⟨m, hg, hmem, htr⟩ := operationAt_mem c r i op h
  by_contra hc
  rw [Bool.not_eq_false] at hc
  have hopF : op ∈ F i := by
    have := hp i
    unfold qOps at this
    rw [hg] at this
    simp only [Option.map_some', Option.getD_some] at this
    rw [← this, List.mem_filter]
    exact ⟨hmem, hc⟩
  have := touches_only_q op q (hF i op hopF) r htr
  exact hrq this

theorem step_preserves_qPattern (r q : Nat) (hrq : r ≠ q)
    (F : Nat → List Operation) (st : Circuit × ℚ) (i : Nat)
    (hp : qPattern st.1 q F) (hF : ∀ j op, op ∈ F j → op.qubits = [q]) :
    qPattern (optimizeRangeStep r st i).1 q F := by
  rcases st with ⟨c, lost⟩
  simp only [optimizeRangeStep]
  cases hop : c.operationAt r i with
  | none => exact hp
  | some op =>
    simp only [hop]
    by_cases hz : op.gate.isKnownZ = true
    · simp only [if_pos hz]
      exact clear_preserves_qPattern c q F [r] i (by simpa using (Ne.symm hrq)) hp hF
    · simp only [if_neg hz]
      by_cases hph : op.gate.isPhaseable = true
      · simp only [if_pos hph]
        have hnt := foreign_op_not_touching c q r i op F hrq hp hF hop
        have hqn : q ∉ op.qubits := by
          rw [← Bool.not_eq_true, touches_iff_mem] at hnt
          exact hnt
        exact clear_insert_preserves_qPattern c q F op.qubits op.qubits
          (op.gate.phaseBy (-lost) (op.qubits.indexOf r)) i
          (operationAt_some_lt c r i op hop) (fun x hx => hx) hqn hqn hp hF
      · simp only [if_neg hph]
        exact hp

theorem fold_preserves_qPattern (r q : Nat) (hrq : r ≠ q)
    (F : Nat → List Operation) (l : List Nat) (c : Circuit) (acc : ℚ)
    (hp : qPattern c q F) (hF : ∀ j op, op ∈ F j → op.qubits = [q]) :
    qPattern ((l.foldl (optimizeRangeStep r) (c, acc)).1) q F := by
  induction l generalizing c acc with
  | nil => exact hp
  | cons i l ih =>
    have h1 := ih (optimizeRangeStep r (c, acc) i).1 (optimizeRangeStep r (c, acc) i).2
      (step_preserves_qPattern r q hrq F (c, acc) i hp hF)
    rw [Prod.mk.eta] at h1
    rw [List.foldl_cons]
    exact h1

theorem drainInto_preserves_qPattern (tol : ℚ) (r q : Nat) (hrq : r ≠ q)
    (F : Nat → List Operation) (drain : Nat) (acc : ℚ) (c : Circuit)
    (hp : qPattern c q F) (hF : ∀ j op, op ∈ F j → op.qubits = [q]) :
    qPattern (drainInto tol r drain acc c) q F := by
  unfold drainInto
  by_cases hneg : isNegligibleTurn acc tol = true
  · simp only [if_pos hneg]
    exact hp
  · simp only [if_neg hneg]
    by_cases hend : drain = c.moments.length
    · simp only [if_pos hend]
      apply append_preserves_qPattern c q F _ _ hp
      rw [← Bool.not_eq_true, touches_iff_mem]
      simp only [List.mem_singleton]
      exact Ne.symm hrq
    · simp only [if_neg hend]
      cases hop : c.operationAt r drain with
      | none => exact hp
      | some op =>
        simp only
        by_cases hz : op.gate.isExpZ = true
        · simp only [if_pos hz]
          exact clear_insert_preserves_qPattern c q F [r] [r] _ drain
            (operationAt_some_lt c r drain op hop) (fun x hx => hx)
            (by simpa using (Ne.symm hrq)) (by simpa using (Ne.symm hrq)) hp hF
        · simp only [if_neg hz]
          exact hp

theorem optimizeRange_preserves_qPattern (tol : ℚ) (r q : Nat) (hrq : r ≠ q)
    (F : Nat → List Operation) (s d : Nat) (c : Circuit)
    (hp : qPattern c q F) (hF : ∀ j op, op ∈ F j → op.qubits = [q]) :
    qPattern (optimizeRange tol r s d c) q F := by
  unfold optimizeRange
  exact drainInto_preserves_qPattern tol r q hrq F d _ _
    (fold_preserves_qPattern r q hrq F _ c 0 hp hF) hF

theorem ejectGo_preserves_qPattern (tol : ℚ) (r q : Nat) (hrq : r ≠ q)
    (F : Nat → List Operation) (hF : ∀ j op, op ∈ F j → op.qubits = [q]) :
    ∀ (l : List Nat) (c : Circuit) (startZ prevZ : Option Nat) (evs : List RangeEv),
    qPattern c q F →
    qPattern (ejectGo tol r l c startZ prevZ evs).1 q F := by
  intro l
  induction l with
  | nil =>
    intro c startZ prevZ evs hp
    cases startZ with
    | none => exact hp
    | some s =>
      exact optimizeRange_preserves_qPattern tol r q hrq F s c.moments.length c hp hF
  | cons i l ih =>
    intro c startZ prevZ evs hp
    simp only [ejectGo]
    cases hop : c.operationAt r i with
    | none => exact ih c startZ prevZ evs hp
    | some op =>
      cases startZ with
      | none =>
        by_cases htrig : (op.gate.isKnownZ && !op.gate.halfTurns.isSym) = true
        · simp only [if_pos htrig]
          exact ih c (some i) none evs hp
        · simp only [if_neg htrig]
          exact ih c none prevZ evs hp
      | some s =>
        by_cases hmeas : op.gate.isMeas = true
        · simp only [if_pos hmeas]
          exact ih _ none prevZ _
            (optimizeRange_preserves_qPattern tol r q hrq F s i c hp hF)
        · simp only [if_neg hmeas]
          by_cases htrig : (op.gate.isKnownZ && !op.gate.halfTurns.isSym) = true
          · simp only [if_pos htrig]
            exact ih c (some s) (some i) evs hp
          · simp only [if_neg htrig]
            by_cases hph : (!op.gate.isPhaseable) = true
            · simp only [if_pos hph]
              cases prevZ with
              | some p =>
                exact ih _ none (some p) _
                  (optimizeRange_preserves_qPattern tol r q hrq F s p c hp hF)
              | none => exact ih c none none evs hp
            · simp only [if_neg hph]
              exact ih c (some s) prevZ evs hp

/-- A pass of EjectZ for a foreign qubit `r` never changes the operations
of qubit `q`, when those all act on `q` alone. -/
theorem ejectQubit_preserves_qPattern (tol : ℚ) (r q : Nat) (hrq : r ≠ q)
    (F : Nat → List Operation) (c : Circuit)
    (hp : qPattern c q F) (hF : ∀ j op, op ∈ F j → op.qubits = [q]) :
    qPattern (ejectQubit tol r c) q F := by
  unfold ejectQubit ejectQubitEv
  exact ejectGo_preserves_qPattern tol r q hrq F hF _ c none none [] hp

theorem filter_touches_of_cleared (q : Nat) (l : List Operation) :
    (l.filter (fun op => !([q].any (fun x => op.touches x)))).filter
      (fun op => op.touches q) = [] := by
  induction l with
  | nil => rfl
  | cons a l ih =>
    rw [List.filter_cons]
    by_cases ha : a.touches q = true
    · simp [ha, ih]
    · have ha2 : a.touches q = false := by rwa [Bool.not_eq_true] at ha
      simp [ha2, List.filter_cons, ih]

/-- Clearing qubit `q` itself at index `k` empties the `q` operations of
moment `k` and leaves every other moment's `q` operations unchanged. -/
theorem clear_q_qOps (c : Circuit) (q k j : Nat) (hk : k < c.moments.length) :
    qOps (c.clearOperationsTouching [q] [(k : Int)]) q j =
      if j = k then [] else qOps c q j := by
  have hcs := clear_single_get? c [q] k j
  by_cases hjk : j = k
  · subst hjk
    rw [if_pos rfl] at hcs
    rw [if_pos rfl]
    cases hg : c.moments.get? j with
    | none =>
      have := List.get?_eq_none.1 hg
      omega
    | some m =>
      rw [hg] at hcs
      unfold qOps
      rw [hcs]
      simp only [Option.map_some', Option.getD_some]
      unfold Moment.withoutTouching
      exact filter_touches_of_cleared q m.ops
  · rw [if_neg hjk] at hcs
    rw [if_neg hjk]
    unfold qOps
    rw [hcs]

theorem optimizeRangeStep_none (q : Nat) (c : Circuit) (acc : ℚ) (i : Nat)
    (h : c.operationAt q i = none) :
    optimizeRangeStep q (c, acc) i = (c, acc) := by
  simp only [optimizeRangeStep, h]

theorem optFold_skip (q : Nat) (l : List Nat) (c : Circuit) (acc : ℚ)
    (h : ∀ i ∈ l, c.operationAt q i = none) :
    l.foldl (optimizeRangeStep q) (c, acc) = (c, acc) := by
  induction l with
  | nil => rfl
  | cons i l ih =>
    rw [List.foldl_cons, optimizeRangeStep_none q c acc i (h i (List.mem_cons_self i l))]
    exact ih (fun i2 hi2 => h i2 (List.mem_cons_of_mem i hi2))

theorem drainInto_not_expZ_id (tol : ℚ) (q d : Nat) (acc : ℚ) (c : Circuit)
    (op : Operation) (hop : c.operationAt q d = some op)
    (hz : op.gate.isExpZ = false) :
    drainInto tol q d acc c = c := by
  unfold drainInto
  by_cases hneg : isNegligibleTurn acc tol = true
  · simp [hneg]
  · have hd := operationAt_some_lt c q d op hop
    simp only [if_neg hneg, if_neg (by omega : ¬ d = c.moments.length), hop, hz]
    simp

theorem ejectGo_skip (tol : ℚ) (q : Nat) (l1 l2 : List Nat) (c : Circuit)
    (startZ prevZ : Option Nat) (evs : List RangeEv)
    (h : ∀ i ∈ l1, c.operationAt q i = none) :
    ejectGo tol q (l1 ++ l2) c startZ prevZ evs =
      ejectGo tol q l2 c startZ prevZ evs := by
  induction l1 with
  | nil => rfl
  | cons i l1 ih =>
    rw [List.cons_append]
    simp only [ejectGo, h i (List.mem_cons_self i l1)]
    exact ih (fun i2 hi2 => h i2 (List.mem_cons_of_mem i hi2))

theorem range'_split (s n k : Nat) (h : k ≤ n) :
    List.range' s n = List.range' s k ++ List.range' (s + k) (n - k) := by
  have h2 := List.range'_append_1 s k (n - k)
  have h3 : n - k + k = n := by omega
  rw [h3] at h2
  exact h2.symm

theorem qOps_nonempty_lt (c : Circuit) (q j : Nat) (h : qOps c q j ≠ []) :
    j < c.moments.length := by
  by_contra hc
  apply h
  unfold qOps
  rw [List.get?_eq_none.2 (by omega)]
  rfl

theorem ejectGo_nil_none (tol : ℚ) (q : Nat) (c : Circuit) (prevZ : Option Nat)
    (evs : List RangeEv) : ejectGo tol q [] c none prevZ evs = (c, evs) := rfl

theorem ejectGo_step_trigger (tol : ℚ) (q i : Nat) (rest : List Nat) (c : Circuit)
    (prevZ : Option Nat) (evs : List RangeEv) (op : Operation)
    (hop : c.operationAt q i = some op)
    (hz : op.gate.isKnownZ = true) (hs : op.gate.halfTurns.isSym = false) :
    ejectGo tol q (i :: rest) c none prevZ evs =
      ejectGo tol q rest c (some i) none evs := by
  simp only [ejectGo, hop]
  rw [if_pos (by rw [hz, hs]; rfl)]

theorem ejectGo_step_prevz (tol : ℚ) (q i : Nat) (rest : List Nat) (c : Circuit)
    (s : Nat) (prevZ : Option Nat) (evs : List RangeEv) (op : Operation)
    (hop : c.operationAt q i = some op)
    (hz : op.gate.isKnownZ = true) (hs : op.gate.halfTurns.isSym = false) :
    ejectGo tol q (i :: rest) c (some s) prevZ evs =
      ejectGo tol q rest c (some s) (some i) evs := by
  simp only [ejectGo, hop]
  rw [if_neg (by rw [knownZ_not_meas op.gate hz]; simp)]
  rw [if_pos (by rw [hz, hs]; rfl)]

theorem ejectGo_step_meas (tol : ℚ) (q i : Nat) (rest : List Nat) (c : Circuit)
    (s : Nat) (prevZ : Option Nat) (evs : List RangeEv) (op : Operation)
    (hop : c.operationAt q i = some op) (hmeas : op.gate.isMeas = true) :
    ejectGo tol q (i :: rest) c (some s) prevZ evs =
      ejectGo tol q rest (optimizeRange tol q s i c) none prevZ
        (evs ++ [⟨s, i, c⟩]) := by
  simp only [ejectGo, hop]
  rw [if_pos hmeas]

theorem optimizeRangeStep_z (q : Nat) (c : Circuit) (acc : ℚ) (i : Nat)
    (op : Operation) (hop : c.operationAt q i = some op)
    (hz : op.gate.isKnownZ = true) :
    optimizeRangeStep q (c, acc) i =
      (c.clearOperationsTouching [q] [(i : Int)],
        acc + op.gate.halfTurns.value / 2) := by
  simp only [optimizeRangeStep, hop, if_pos hz]

/-- The `q` operation pattern of the C4 scenario: an unparameterized Z at
`i1`, an unparameterized Z at `i2`, a measurement at `i3`, nothing else. -/
def patF (i1 i2 i3 : Nat) (z1 z2 mop : Operation) : Nat → List Operation :=
  fun j => if j = i1 then [z1] else if j = i2 then [z2] else
    if j = i3 then [mop] else []

theorem range'_eq_cons (s n : Nat) (h : 1 ≤ n) :
    List.range' s n = s :: List.range' (s + 1) (n - 1) := by
  conv_lhs => rw [(by omega : n = (n - 1) + 1)]
  rw [List.range'_succ]

/-- The `q` pattern after the first Z has been cleared. -/
def patF2 (i2 i3 : Nat) (z2 mop : Operation) : Nat → List Operation :=
  fun j => if j = i2 then [z2] else if j = i3 then [mop] else []

/-- The `q` pattern once only the measurement remains. -/
def patF3 (i3 : Nat) (mop : Operation) : Nat → List Operation :=
  fun j => if j = i3 then [mop] else []

/-- The EjectZ pass for qubit `q` itself, run on a circuit matching the
C4 pattern: both Z gates are removed, the measurement stays, and nothing
else appears on `q`. -/
theorem ejectQubit_on_pattern (tol : ℚ) (q : Nat) (c : Circuit)
    (i1 i2 i3 : Nat) (z1 z2 mop : Operation)
    (h12 : i1 < i2) (h23 : i2 < i3)
    (hz1 : z1.gate.isKnownZ = true) (hs1 : z1.gate.halfTurns.isSym = false)
    (hz2 : z2.gate.isKnownZ = true) (hs2 : z2.gate.halfTurns.isSym = false)
    (hm : mop.gate.isMeas = true)
    (hpat : qPattern c q (patF i1 i2 i3 z1 z2 mop)) :
    qPattern (ejectQubit tol q c) q (patF3 i3 mop) := by
  have hq1 : qOps c q i1 = [z1] := by
    rw [hpat i1]
    simp [patF]
  have hq2 : qOps c q i2 = [z2] := by
    rw [hpat i2]
    simp only [patF]
    rw [if_neg (by omega)]
    simp
  have hq3 : qOps c q i3 = [mop] := by
    rw [hpat i3]
    simp only [patF]
    rw [if_neg (by omega), if_neg (by omega)]
    simp
  have hqnil : ∀ j, j ≠ i1 → j ≠ i2 → j ≠ i3 → qOps c q j = [] := by
    intro j hj1 hj2 hj3
    rw [hpat j]
    simp only [patF]
    rw [if_neg hj1, if_neg hj2, if_neg hj3]
  have hn3 : i3 < c.moments.length := qOps_nonempty_lt c q i3 (by rw [hq3]; simp)
  have hop1 : c.operationAt q i1 = some z1 := operationAt_of_qOps_single c q i1 z1 hq1
  have hop2 : c.operationAt q i2 = some z2 := operationAt_of_qOps_single c q i2 z2 hq2
  have hop3 : c.operationAt q i3 = some mop := operationAt_of_qOps_single c q i3 mop hq3
  have hc1len : (c.clearOperationsTouching [q] [(i1 : Int)]).moments.length =
      c.moments.length := clear_length c [q] _
  have hp1 : qPattern (c.clearOperationsTouching [q] [(i1 : Int)]) q
      (patF2 i2 i3 z2 mop) := by
    intro j
    rw [clear_q_qOps c q i1 j (by omega)]
    simp only [patF2]
    by_cases hj1 : j = i1
    · rw [if_pos hj1, if_neg (by omega), if_neg (by omega)]
    · rw [if_neg hj1, hpat j]
      simp only [patF]
      rw [if_neg hj1]
  set c1 := c.clearOperationsTouching [q] [(i1 : Int)] with hc1def
  have hp1op2 : c1.operationAt q i2 = some z2 := by
    apply operationAt_of_qOps_single
    rw [hp1 i2]
    simp [patF2]
  have hp2 : qPattern (c1.clearOperationsTouching [q] [(i2 : Int)]) q
      (patF3 i3 mop) := by
    intro j
    rw [clear_q_qOps c1 q i2 j (by omega)]
    simp only [patF3]
    by_cases hj2 : j = i2
    · rw [if_pos hj2, if_neg (by omega)]
    · rw [if_neg hj2, hp1 j]
      simp only [patF2]
      rw [if_neg hj2]
  set c2 := c1.clearOperationsTouching [q] [(i2 : Int)] with hc2def
  have hp2op3 : c2.operationAt q i3 = some mop := by
    apply operationAt_of_qOps_single
    rw [hp2 i3]
    simp [patF3]
  have hrange : optimizeRange tol q i1 i3 c = c2 := by
    unfold optimizeRange
    have hsplit1 : List.range' i1 (i3 - i1) =
        i1 :: List.range' (i1 + 1) (i3 - i1 - 1) :=
      range'_eq_cons i1 (i3 - i1) (by omega)
    have hsplit2 : List.range' (i1 + 1) (i3 - i1 - 1) =
        List.range' (i1 + 1) (i2 - i1 - 1) ++ List.range' i2 (i3 - i2) := by
      have he := range'_split (i1 + 1) (i3 - i1 - 1) (i2 - i1 - 1) (by omega)
      have e1 : i1 + 1 + (i2 - i1 - 1) = i2 := by omega
      have e2 : i3 - i1 - 1 - (i2 - i1 - 1) = i3 - i2 := by omega
      rw [e1, e2] at he
      exact he
    have hsplit3 : List.range' i2 (i3 - i2) =
        i2 :: List.range' (i2 + 1) (i3 - i2 - 1) :=
      range'_eq_cons i2 (i3 - i2) (by omega)
    rw [hsplit1]
    rw [List.foldl_cons, optimizeRangeStep_z q c 0 i1 z1 hop1 hz1]
    rw [hsplit2, List.foldl_append]
    rw [optFold_skip q (List.range' (i1 + 1) (i2 - i1 - 1))
      (c.clearOperationsTouching [q] [(i1 : Int)])
      (0 + z1.gate.halfTurns.value / 2) (by
      intro j hj
      rw [List.mem_range'_1] at hj
      apply operationAt_of_qOps_nil
      show qOps c1 q j = []
      rw [hp1 j]
      simp only [patF2]
      rw [if_neg (by omega), if_neg (by omega)])]
    rw [hsplit3]
    rw [List.foldl_cons, optimizeRangeStep_z q c1 _ i2 z2 hp1op2 hz2]
    rw [optFold_skip q (List.range' (i2 + 1) (i3 - i2 - 1))
      (c1.clearOperationsTouching [q] [(i2 : Int)])
      (0 + z1.gate.halfTurns.value / 2 + z2.gate.halfTurns.value / 2) (by
      intro j hj
      rw [List.mem_range'_1] at hj
      apply operationAt_of_qOps_nil
      show qOps c2 q j = []
      rw [hp2 j]
      simp only [patF3]
      rw [if_neg (by omega)])]
    exact drainInto_not_expZ_id tol q i3 _ c2 mop hp2op3 (meas_not_expZ mop.gate hm)
  unfold ejectQubit ejectQubitEv
  rw [List.range_eq_range']
  rw [range'_split 0 c.moments.length i1 (by omega)]
  rw [ejectGo_skip tol q _ _ c none none [] (by
    intro j hj
    rw [List.mem_range'_1] at hj
    exact operationAt_of_qOps_nil c q j (hqnil j (by omega) (by omega) (by omega)))]
  rw [Nat.zero_add]
  have hsp1 : List.range' i1 (c.moments.length - i1) =
      i1 :: List.range' (i1 + 1) (c.moments.length - i1 - 1) :=
    range'_eq_cons i1 (c.moments.length - i1) (by omega)
  rw [hsp1, ejectGo_step_trigger tol q i1 _ c none [] z1 hop1 hz1 hs1]
  have hsp2 : List.range' (i1 + 1) (c.moments.length - i1 - 1) =
      List.range' (i1 + 1) (i2 - i1 - 1) ++
        List.range' i2 (c.moments.length - i2) := by
    have he := range'_split (i1 + 1) (c.moments.length - i1 - 1) (i2 - i1 - 1)
      (by omega)
    have e1 : i1 + 1 + (i2 - i1 - 1) = i2 := by omega
    have e2 : c.moments.length - i1 - 1 - (i2 - i1 - 1) = c.moments.length - i2 := by
      omega
    rw [e1, e2] at he
    exact he
  rw [hsp2, ejectGo_skip tol q _ _ c (some i1) none [] (by
    intro j hj
    rw [List.mem_range'_1] at hj
    exact operationAt_of_qOps_nil c q j (hqnil j (by omega) (by omega) (by omega)))]
  have hsp3 : List.range' i2 (c.moments.length - i2) =
      i2 :: List.range' (i2 + 1) (c.moments.length - i2 - 1) :=
    range'_eq_cons i2 (c.moments.length - i2) (by omega)
  rw [hsp3, ejectGo_step_prevz tol q i2 _ c i1 none [] z2 hop2 hz2 hs2]
  have hsp4 : List.range' (i2 + 1) (c.moments.length - i2 - 1) =
      List.range' (i2 + 1) (i3 - i2 - 1) ++
        List.range' i3 (c.moments.length - i3) := by
    have he := range'_split (i2 + 1) (c.moments.length - i2 - 1) (i3 - i2 - 1)
      (by omega)
    have e1 : i2 + 1 + (i3 - i2 - 1) = i3 := by omega
    have e2 : c.moments.length - i2 - 1 - (i3 - i2 - 1) =
        c.moments.length - i3 := by omega
    rw [e1, e2] at he
    exact he
  rw [hsp4, ejectGo_skip tol q _ _ c (some i1) (some i2) [] (by
    intro j hj
    rw [List.mem_range'_1] at hj
    exact operationAt_of_qOps_nil c q j (hqnil j (by omega) (by omega) (by omega)))]
  have hsp5 : List.range' i3 (c.moments.length - i3) =
      i3 :: List.range' (i3 + 1) (c.moments.length - i3 - 1) :=
    range'_eq_cons i3 (c.moments.length - i3) (by omega)
  rw [hsp5, ejectGo_step_meas tol q i3 _ c i1 (some i2) [] mop hop3 hm]
  rw [hrange]
  have happ : List.range' (i3 + 1) (c.moments.length - i3 - 1) =
      List.range' (i3 + 1) (c.moments.length - i3 - 1) ++ [] :=
    (List.append_nil _).symm
  rw [happ]
  rw [ejectGo_skip tol q _ [] c2 none (some i2) _ (by
    intro j hj
    rw [List.mem_range'_1] at hj
    apply operationAt_of_qOps_nil
    rw [hp2 j]
    simp only [patF3]
    rw [if_neg (by omega)])]
  exact hp2

theorem mem_qubits_foldr_inner (x : Nat) (l : List Operation) (acc : List Nat) :
    x ∈ l.foldr (fun op a => op.qubits ++ a) acc ↔
      (∃ op ∈ l, x ∈ op.qubits) ∨ x ∈ acc := by
  induction l with
  | nil => simp
  | cons op l ih =>
    simp only [List.foldr_cons, List.mem_append, ih, List.mem_cons]
    constructor
    · rintro (h | (⟨op2, hop2, hx⟩ | h))
      · exact Or.inl ⟨op, Or.inl rfl, h⟩
      · exact Or.inl ⟨op2, Or.inr hop2, hx⟩
      · exact Or.inr h
    · rintro (⟨op2, (rfl | hop2), hx⟩ | h)
      · exact Or.inl hx
      · exact Or.inr (Or.inl ⟨op2, hop2, hx⟩)
      · exact Or.inr (Or.inr h)

theorem mem_allQubits (c : Circuit) (x : Nat) :
    x ∈ c.allQubits ↔ ∃ m ∈ c.moments, ∃ op ∈ m.ops, x ∈ op.qubits := by
  unfold Circuit.allQubits
  rw [List.mem_dedup]
  induction c.moments with
  | nil => simp
  | cons m ms ih =>
    simp only [List.foldr_cons, mem_qubits_foldr_inner, List.mem_cons]
    constructor
    · rintro (⟨op, hop, hx⟩ | h)
      · exact ⟨m, Or.inl rfl, op, hop, hx⟩
      · obtain ⟨m2, hm2, op, hop, hx⟩ := ih.1 h
        exact ⟨m2, Or.inr hm2, op, hop, hx⟩
    · rintro ⟨m2, (rfl | hm2), op, hop, hx⟩
      · exact Or.inl ⟨op, hop, hx⟩
      · exact Or.inr (ih.2 ⟨m2, hm2, op, hop, hx⟩)

theorem foldl_eject_foreign (tol : ℚ) (q : Nat) (F : Nat → List Operation)
    (L : List Nat) (c : Circuit) (hq : q ∉ L)
    (hp : qPattern c q F) (hF : ∀ j op, op ∈ F j → op.qubits = [q]) :
    qPattern (L.foldl (fun c r => ejectQubit tol r c) c) q F := by
  induction L generalizing c with
  | nil => exact hp
  | cons r L ih =>
    rw [List.foldl_cons]
    exact ih _ (fun h => hq (List.mem_cons_of_mem r h))
      (ejectQubit_preserves_qPattern tol r q
        (fun h => hq (h ▸ List.mem_cons_self r L)) F c hp hF)

/-- C4: in any timeline where qubit `q` carries exactly two consecutive
unparameterized Z gates (acting on `q` alone) with nothing else on `q`
between or around them except a later measurement of `q`, EjectZ removes
both Z gates, leaves the measurement exactly in place, and emits no
trailing phase gate on `q`: afterwards the only operation on `q` is the
original measurement. -/
theorem ejectZ_double_z_then_measure (tol : ℚ) (c : Circuit) (q i1 i2 i3 : Nat)
    (z1 z2 mop : Operation)
    (h12 : i1 < i2) (h23 : i2 < i3)
    (hz1 : z1.gate.isKnownZ = true) (hs1 : z1.gate.halfTurns.isSym = false)
    (hz1q : z1.qubits = [q])
    (hz2 : z2.gate.isKnownZ = true) (hs2 : z2.gate.halfTurns.isSym = false)
    (hz2q : z2.qubits = [q])
    (hm : mop.gate.isMeas = true) (hmq : mop.qubits = [q])
    (hpat : qPattern c q (patF i1 i2 i3 z1 z2 mop)) :
    ∀ j, (ejectZOptimize tol c).operationAt q j =
      if j = i3 then some mop else none := by
  have hF : ∀ j op, op ∈ patF i1 i2 i3 z1 z2 mop j → op.qubits = [q] := by
    intro j op hop
    simp only [patF] at hop
    by_cases hj1 : j = i1
    · rw [if_pos hj1] at hop
      rw [List.mem_singleton] at hop
      rw [hop]
      exact hz1q
    · rw [if_neg hj1] at hop
      by_cases hj2 : j = i2
      · rw [if_pos hj2] at hop
        rw [List.mem_singleton] at hop
        rw [hop]
        exact hz2q
      · rw [if_neg hj2] at hop
        by_cases hj3 : j = i3
        · rw [if_pos hj3] at hop
          rw [List.mem_singleton] at hop
          rw [hop]
          exact hmq
        · rw [if_neg hj3] at hop
          cases hop
  have hF3 : ∀ j op, op ∈ patF3 i3 mop j → op.qubits = [q] := by
    intro j op hop
    simp only [patF3] at hop
    by_cases hj3 : j = i3
    · rw [if_pos hj3] at hop
      rw [List.mem_singleton] at hop
      rw [hop]
      exact hmq
    · rw [if_neg hj3] at hop
      cases hop
  have hqmem : q ∈ c.allQubits := by
    rw [mem_allQubits]
    have h1 := hpat i1
    unfold qOps at h1
    have hlt : i1 < c.moments.length := by
      have := qOps_nonempty_lt c q i1 (by
        unfold qOps
        rw [show (((c.moments.get? i1).map
          (fun m => m.ops.filter (fun op => op.touches q))).getD []) =
            patF i1 i2 i3 z1 z2 mop i1 from h1]
        simp [patF])
      exact this
    cases hg : c.moments.get? i1 with
    | none =>
      have := List.get?_eq_none.1 hg
      omega
    | some m =>
      rw [hg] at h1
      simp only [Option.map_some', Option.getD_some] at h1
      have hz1m : z1 ∈ m.ops.filter (fun op => op.touches q) := by
        rw [h1]
        simp [patF]
      rw [List.mem_filter] at hz1m
      exact ⟨m, List.get?_mem hg, z1, hz1m.1, by
        rw [← touches_iff_mem]
        exact hz1m.2⟩
  obtain ⟨L1, L2, hsplit⟩ := List.append_of_mem hqmem
  have hnd : c.allQubits.Nodup := List.nodup_dedup _
  rw [hsplit] at hnd
  rw [List.nodup_append] at hnd
  have hqL1 : q ∉ L1 := fun h => hnd.2.2 h (List.mem_cons_self q L2)
  have hqL2 : q ∉ L2 := by
    have := hnd.2.1
    rw [List.nodup_cons] at this
    exact this.1
  have hfinal : qPattern (ejectZOptimize tol c) q (patF3 i3 mop) := by
    unfold ejectZOptimize
    rw [hsplit, List.foldl_append, List.foldl_cons]
    apply foldl_eject_foreign tol q (patF3 i3 mop) L2 _ hqL2 _ hF3
    apply ejectQubit_on_pattern tol q _ i1 i2 i3 z1 z2 mop h12 h23 hz1 hs1 hz2 hs2 hm
    exact foldl_eject_foreign tol q (patF i1 i2 i3 z1 z2 mop) L1 c hqL1 hpat hF
  intro j
  by_cases hj3 : j = i3
  · rw [if_pos hj3]
    apply operationAt_of_qOps_single
    rw [hfinal j]
    simp [patF3, hj3]
  · rw [if_neg hj3]
    apply operationAt_of_qOps_nil
    rw [hfinal j]
    simp [patF3, hj3]

/-- Witness for C4 at the concrete two-Z-then-measure timeline of the
spec scenario: the measurement stays at index 2, all other indices carry
nothing on the qubit. -/
theorem ejectZ_double_z_then_measure_witness :
    (ejectZOptimize 0
      ⟨[⟨[⟨.expZ (.val (1 / 2)), [0]⟩]⟩, ⟨[⟨.expZ (.val (1 / 2)), [0]⟩]⟩,
        ⟨[⟨.meas 0, [0]⟩]⟩]⟩).operationAt 0 2 = some ⟨.meas 0, [0]⟩ ∧
    (ejectZOptimize 0
      ⟨[⟨[⟨.expZ (.val (1 / 2)), [0]⟩]⟩, ⟨[⟨.expZ (.val (1 / 2)), [0]⟩]⟩,
        ⟨[⟨.meas 0, [0]⟩]⟩]⟩).operationAt 0 0 = none ∧
    (ejectZOptimize 0
      ⟨[⟨[⟨.expZ (.val (1 / 2)), [0]⟩]⟩, ⟨[⟨.expZ (.val (1 / 2)), [0]⟩]⟩,
        ⟨[⟨.meas 0, [0]⟩]⟩]⟩).operationAt 0 1 = none ∧
    (ejectZOptimize 0
      ⟨[⟨[⟨.expZ (.val (1 / 2)), [0]⟩]⟩, ⟨[⟨.expZ (.val (1 / 2)), [0]⟩]⟩,
        ⟨[⟨.meas 0, [0]⟩]⟩]⟩).operationAt 0 3 = none := by
  have h := ejectZ_double_z_then_measure 0
    ⟨[⟨[⟨.expZ (.val (1 / 2)), [0]⟩]⟩, ⟨[⟨.expZ (.val (1 / 2)), [0]⟩]⟩,
      ⟨[⟨.meas 0, [0]⟩]⟩]⟩ 0 0 1 2
    ⟨.expZ (.val (1 / 2)), [0]⟩ ⟨.expZ (.val (1 / 2)), [0]⟩ ⟨.meas 0, [0]⟩
    (by decide) (by decide) (by decide) (by decide) (by decide)
    (by decide) (by decide) (by decide) (by decide) (by decide)
    (by
      intro j
      simp only [patF]
      by_cases h0 : j = 0
      · subst h0
        decide
      · by_cases h1 : j = 1
        · subst h1
          decide
        · by_cases h2 : j = 2
          · subst h2
            decide
          · rw [if_neg h0, if_neg h1, if_neg h2]
            unfold qOps
            rw [List.get?_eq_none.2 (by simp; omega)]
            rfl)
  refine ⟨?_, ?_, ?_, ?_⟩
  · rw [h 2]
    rfl
  · rw [h 0]
    rfl
  · rw [h 1]
    rfl
  · rw [h 3]
    rfl

/-! ### C3: a single-qubit abstraction for EjectZ idempotence -/

/-- The moment holding an optional single operation: the concretization of
one entry of a single-qubit timeline. -/
def omom : Option Operation → Moment
  | none => ⟨[]⟩
  | some op => ⟨[op]⟩

/-- Concretization of an abstract single-qubit timeline. -/
def sqC (l : List (Option Operation)) : Circuit :=
  ⟨l.map omom⟩

/-- Every present entry of the abstract timeline acts on exactly `[q]`. -/
def aWf (q : Nat) (l : List (Option Operation)) : Prop :=
  ∀ o ∈ l, ∀ op, o = some op → op.qubits = [q]

/-- The entry of the abstract timeline at an index. -/
def aOpAt (l : List (Option Operation)) (i : Nat) : Option Operation :=
  (l.get? i).getD none

/-- The abstract mirror of appending one operation with INLINE: join the
final entry when it is empty, otherwise open a fresh final entry. -/
def aAppend (l : List (Option Operation)) (op : Operation) : List (Option Operation) :=
  if 1 ≤ l.length ∧ aOpAt l (l.length - 1) = none then
    l.set (l.length - 1) (some op)
  else l ++ [some op]

/-- The abstract mirror of `optimizeRangeStep` on a single-qubit timeline. -/
def aStep (q : Nat) (st : List (Option Operation) × ℚ) (i : Nat) :
    List (Option Operation) × ℚ :=
  match aOpAt st.1 i with
  | none => st
  | some op =>
    if op.gate.isKnownZ then
      (st.1.set i none, st.2 + op.gate.halfTurns.value / 2)
    else if op.gate.isPhaseable then
      (st.1.set i (some ⟨op.gate.phaseBy (-st.2) (op.qubits.indexOf q), op.qubits⟩),
        st.2)
    else st

/-- The abstract mirror of `drainInto` on a single-qubit timeline. -/
def aDrain (tol : ℚ) (q : Nat) (d : Nat) (acc : ℚ) (l : List (Option Operation)) :
    List (Option Operation) :=
  if isNegligibleTurn acc tol then l
  else if d = l.length then aAppend l ⟨.expZ (.val (2 * acc)), [q]⟩
  else
    match aOpAt l d with
    | some op =>
      if op.gate.isExpZ then
        l.set d (some ⟨.expZ (.val (op.gate.halfTurns.value + acc * 2)), [q]⟩)
      else l
    | none => l

/-- The abstract mirror of `optimizeRange` on a single-qubit timeline. -/
def aRange (tol : ℚ) (q : Nat) (s d : Nat) (l : List (Option Operation)) :
    List (Option Operation) :=
  let st := (List.range' s (d - s)).foldl (aStep q) (l, 0)
  aDrain tol q d st.2 st.1

/-- The abstract mirror of the interleaved `ejectGo` scan. -/
def aGo (tol : ℚ) (q : Nat) : List Nat → List (Option Operation) → Option Nat →
    Option Nat → List (Option Operation)
  | [], l, startZ, _ =>
    match startZ with
    | some s => aRange tol q s l.length l
    | none => l
  | i :: rest, l, startZ, prevZ =>
    match aOpAt l i with
    | none => aGo tol q rest l startZ prevZ
    | some op =>
      match startZ with
      | none =>
        if op.gate.isKnownZ && !op.gate.halfTurns.isSym then
          aGo tol q rest l (some i) none
        else aGo tol q rest l none prevZ
      | some s =>
        if op.gate.isMeas then
          aGo tol q rest (aRange tol q s i l) none prevZ
        else if op.gate.isKnownZ && !op.gate.halfTurns.isSym then
          aGo tol q rest l (some s) (some i)
        else if !op.gate.isPhaseable then
          match prevZ with
          | some p => aGo tol q rest (aRange tol q s p l) none prevZ
          | none => aGo tol q rest l none prevZ
        else aGo tol q rest l (some s) prevZ

/-- The abstract mirror of the whole per-qubit EjectZ pass. -/
def aScan (tol : ℚ) (q : Nat) (l : List (Option Operation)) :
    List (Option Operation) :=
  aGo tol q (List.range l.length) l none none

theorem sqC_length (l : List (Option Operation)) :
    (sqC l).moments.length = l.length := by
  simp [sqC]

theorem map_omom_set (l : List (Option Operation)) (i : Nat) (o : Option Operation) :
    (l.set i o).map omom = (l.map omom).set i (omom o) := by
  induction l generalizing i with
  | nil => rfl
  | cons a l ih =>
    cases i with
    | zero => rfl
    | succ i => simp [List.set_cons_succ, ih]

theorem aOpAt_eq_some (l : List (Option Operation)) (i : Nat) (op : Operation)
    (h : aOpAt l i = some op) : l.get? i = some (some op) := by
  unfold aOpAt at h
  cases hg : l.get? i with
  | none => rw [hg] at h; cases h
  | some o =>
    rw [hg] at h
    simp only [Option.getD_some] at h
    rw [h]

theorem aOpAt_lt (l : List (Option Operation)) (i : Nat) (op : Operation)
    (h : aOpAt l i = some op) : i < l.length :=
  (List.get?_eq_some.1 (aOpAt_eq_some l i op h)).1

theorem aOpAt_oob (l : List (Option Operation)) (i : Nat) (h : l.length ≤ i) :
    aOpAt l i = none := by
  unfold aOpAt
  rw [List.get?_eq_none.2 h]
  rfl

theorem aWf_entry (q : Nat) (l : List (Option Operation)) (i : Nat) (op : Operation)
    (hwf : aWf q l) (h : aOpAt l i = some op) : op.qubits = [q] :=
  hwf _ (List.get?_mem (aOpAt_eq_some l i op h)) op rfl

theorem aWf_set (q : Nat) (l : List (Option Operation)) (i : Nat)
    (o : Option Operation) (hwf : aWf q l)
    (ho : ∀ op, o = some op → op.qubits = [q]) : aWf q (l.set i o) := by
  intro x hx op hop
  rcases List.mem_or_eq_of_mem_set hx with h | h
  · exact hwf x h op hop
  · exact ho op (h ▸ hop)

theorem aWf_append (q : Nat) (l : List (Option Operation)) (op2 : Operation)
    (hwf : aWf q l) (h2 : op2.qubits = [q]) : aWf q (aAppend l op2) := by
  unfold aAppend
  by_cases hc : 1 ≤ l.length ∧ aOpAt l (l.length - 1) = none
  · rw [if_pos hc]
    exact aWf_set q l _ _ hwf (fun op hop => by cases hop; exact h2)
  · rw [if_neg hc]
    intro x hx op hop
    rcases List.mem_append.1 hx with h | h
    · exact hwf x h op hop
    · rcases List.mem_singleton.1 h with rfl
      cases hop
      exact h2

theorem circuit_eq_of_moments (c1 c2 : Circuit) (h : c1.moments = c2.moments) :
    c1 = c2 := by
  cases c1
  cases c2
  simpa using h

theorem sqC_get? (l : List (Option Operation)) (k : Nat) :
    (sqC l).moments.get? k = (l.get? k).map omom := by
  simp [sqC, List.get?_map]

theorem sqC_operationAt (q : Nat) (l : List (Option Operation)) (i : Nat)
    (hwf : aWf q l) : (sqC l).operationAt q i = aOpAt l i := by
  unfold Circuit.operationAt aOpAt
  rw [sqC_get?]
  cases hg : l.get? i with
  | none => rfl
  | some o =>
    cases o with
    | none => rfl
    | some op =>
      have hq := hwf _ (List.get?_mem hg) op rfl
      simp only [Option.map_some', Option.getD_some]
      show (omom (some op)).ops.find? (fun op2 => op2.touches q) = some op
      unfold omom
      simp [Operation.touches, hq]

theorem omom_withoutTouching (q : Nat) (qs : List Nat) (o : Option Operation)
    (hq : q ∈ qs) (ho : ∀ op, o = some op → op.qubits = [q]) :
    (omom o).withoutTouching qs = ⟨[]⟩ := by
  cases o with
  | none => rfl
  | some op =>
    have h2 := ho op rfl
    unfold omom Moment.withoutTouching
    simp only [List.filter]
    have htouch : (qs.any (fun r => op.touches r)) = true := by
      rw [List.any_eq_true]
      exact ⟨q, hq, by simp [Operation.touches, h2]⟩
    rw [htouch]
    rfl

theorem sqC_clear (q : Nat) (qs : List Nat) (l : List (Option Operation)) (i : Nat)
    (hq : q ∈ qs) (hwf : aWf q l) :
    (sqC l).clearOperationsTouching qs [(i : Int)] = sqC (l.set i none) := by
  apply circuit_eq_of_moments
  apply List.ext
  intro k
  rw [clear_single_get?, sqC_get?, sqC_get?]
  by_cases hk : k = i
  · subst hk
    rw [if_pos rfl, List.get?_set_eq]
    cases hg : l.get? k with
    | none => rfl
    | some o =>
      simp only [Option.map_some', Option.map_eq_map]
      rw [omom_withoutTouching q qs o hq (fun op hop => hwf _ (List.get?_mem hg) op hop)]
      rfl
  · rw [if_neg hk, List.get?_set_ne _ _ (fun h => hk h.symm)]

theorem sqC_clear_insert (q : Nat) (qs : List Nat) (g : Gate)
    (l : List (Option Operation)) (i : Nat) (hq : q ∈ qs) (hwf : aWf q l)
    (hi : i < l.length) :
    ((sqC l).clearOperationsTouching qs [(i : Int)]).insertD (i + 1)
      [⟨g, [q]⟩] .INLINE = sqC (l.set i (some ⟨g, [q]⟩)) := by
  have hsub : ∀ x ∈ ([q] : List Nat), x ∈ qs := by
    intro x hx
    rcases List.mem_singleton.1 hx with rfl
    exact hq
  have heff := clear_insert_effect (sqC l) qs [q] g i (by simpa [sqC] using hi) hsub
  apply circuit_eq_of_moments
  apply List.ext
  intro k
  by_cases hk : k = i
  · subst hk
    cases hg : l.get? k with
    | none =>
      have := List.get?_eq_none.1 hg
      omega
    | some o =>
      have hm : (sqC l).moments.get? k = some (omom o) := by
        rw [sqC_get?, hg]
        rfl
      rw [heff.2.2 (omom o) hm, sqC_get?, List.get?_set_eq, hg]
      simp only [Option.map_eq_map, Option.map_some']
      rw [omom_withoutTouching q qs o hq (fun op hop => hwf _ (List.get?_mem hg) op hop)]
      rfl
  · rw [heff.2.1 k hk, sqC_get?, sqC_get?, List.get?_set_ne _ _ (fun h => hk h.symm)]

theorem sqC_append (q : Nat) (g : Gate) (l : List (Option Operation))
    (hwf : aWf q l) :
    (sqC l).append [⟨g, [q]⟩] .INLINE = sqC (aAppend l ⟨g, [q]⟩) := by
  apply circuit_eq_of_moments
  rw [append_single_inline]
  have hlen : (sqC l).moments.length = l.length := sqC_length l
  have hcond : (1 ≤ (sqC l).moments.length ∧
      canAddAt (sqC l).moments ((sqC l).moments.length - 1) ⟨g, [q]⟩ = true) ↔
      (1 ≤ l.length ∧ aOpAt l (l.length - 1) = none) := by
    rw [hlen]
    constructor
    · rintro ⟨h1, h2⟩
      refine ⟨h1, ?_⟩
      cases hg : l.get? (l.length - 1) with
      | none =>
        have := List.get?_eq_none.1 hg
        omega
      | some o =>
        cases o with
        | none =>
          unfold aOpAt
          rw [hg]
          rfl
        | some op =>
          exfalso
          have hqo := hwf _ (List.get?_mem hg) op rfl
          unfold canAddAt at h2
          rw [Bool.or_eq_true] at h2
          rcases h2 with h2 | h2
          · rw [decide_eq_true_eq] at h2
            omega
          · rw [sqC_get?, hg] at h2
            simp only [Option.map_some'] at h2
            unfold omom Moment.canAdd Moment.touchesAny at h2
            simp [Operation.touches, hqo] at h2
    · rintro ⟨h1, h2⟩
      refine ⟨h1, ?_⟩
      unfold aOpAt at h2
      cases hg : l.get? (l.length - 1) with
      | none =>
        have := List.get?_eq_none.1 hg
        omega
      | some o =>
        rw [hg] at h2
        simp only [Option.getD_some] at h2
        subst h2
        unfold canAddAt
        rw [sqC_get?, hg]
        simp [omom, Moment.canAdd, Moment.touchesAny]
  unfold aAppend
  by_cases hc : 1 ≤ l.length ∧ aOpAt l (l.length - 1) = none
  · rw [if_pos (hcond.2 hc), if_pos hc]
    obtain ⟨h1, h2⟩ := hc
    unfold aOpAt at h2
    cases hg : l.get? (l.length - 1) with
    | none =>
      have := List.get?_eq_none.1 hg
      omega
    | some o =>
      rw [hg] at h2
      simp only [Option.getD_some] at h2
      subst h2
      show (l.map omom).set ((l.map omom).length - 1)
          ⟨(((l.map omom).get? ((l.map omom).length - 1)).getD ⟨[]⟩).ops ++ [⟨g, [q]⟩]⟩ =
        (l.set (l.length - 1) (some ⟨g, [q]⟩)).map omom
      rw [map_omom_set, List.length_map, List.get?_map, hg]
      rfl
  · rw [if_neg (fun h => hc (hcond.1 h)), if_neg hc]
    show (l.map omom) ++ [omom (some (⟨g, [q]⟩ : Operation))] =
      (l ++ [some (⟨g, [q]⟩ : Operation)]).map omom
    rw [List.map_append]
    rfl

theorem aStep_wf (q : Nat) (l : List (Option Operation)) (acc : ℚ) (i : Nat)
    (hwf : aWf q l) : aWf q (aStep q (l, acc) i).1 := by
  unfold aStep
  cases hop : aOpAt l i with
  | none => exact hwf
  | some op =>
    simp only
    have hqo := aWf_entry q l i op hwf hop
    by_cases hz : op.gate.isKnownZ = true
    · rw [if_pos hz]
      exact aWf_set q l i none hwf (fun op2 h => by cases h)
    · rw [if_neg hz]
      by_cases hp : op.gate.isPhaseable = true
      · rw [if_pos hp]
        exact aWf_set q l i _ hwf (fun op2 h => by cases h; exact hqo)
      · rw [if_neg hp]
        exact hwf

theorem optimizeRangeStep_sim (q : Nat) (l : List (Option Operation)) (acc : ℚ)
    (i : Nat) (hwf : aWf q l) :
    optimizeRangeStep q (sqC l, acc) i =
      (sqC (aStep q (l, acc) i).1, (aStep q (l, acc) i).2) := by
  unfold optimizeRangeStep aStep
  simp only
  rw [sqC_operationAt q l i hwf]
  cases hop : aOpAt l i with
  | none => rfl
  | some op =>
    simp only
    have hqo := aWf_entry q l i op hwf hop
    have hi := aOpAt_lt l i op hop
    by_cases hz : op.gate.isKnownZ = true
    · rw [if_pos hz, if_pos hz]
      rw [sqC_clear q [q] l i (List.mem_singleton.2 rfl) hwf]
    · rw [if_neg hz, if_neg hz]
      by_cases hp : op.gate.isPhaseable = true
      · rw [if_pos hp, if_pos hp]
        rw [hqo]
        rw [sqC_clear_insert q [q] _ l i (List.mem_singleton.2 rfl) hwf hi]
      · rw [if_neg hp, if_neg hp]

theorem optimizeRangeFold_sim (q : Nat) (L : List Nat) (l : List (Option Operation))
    (acc : ℚ) (hwf : aWf q l) :
    L.foldl (optimizeRangeStep q) (sqC l, acc) =
      (sqC (L.foldl (aStep q) (l, acc)).1, (L.foldl (aStep q) (l, acc)).2) ∧
    aWf q (L.foldl (aStep q) (l, acc)).1 := by
  induction L generalizing l acc with
  | nil => exact ⟨rfl, hwf⟩
  | cons i L ih =>
    simp only [List.foldl_cons]
    rw [optimizeRangeStep_sim q l acc i hwf]
    have hwf1 : aWf q (aStep q (l, acc) i).1 := aStep_wf q l acc i hwf
    have heta : ((aStep q (l, acc) i).1, (aStep q (l, acc) i).2) = aStep q (l, acc) i :=
      rfl
    have := ih (aStep q (l, acc) i).1 (aStep q (l, acc) i).2 hwf1
    rw [heta] at this
    exact this

theorem aDrain_wf (tol : ℚ) (q d : Nat) (acc : ℚ) (l : List (Option Operation))
    (hwf : aWf q l) : aWf q (aDrain tol q d acc l) := by
  unfold aDrain
  by_cases hneg : isNegligibleTurn acc tol = true
  · rw [if_pos hneg]
    exact hwf
  · rw [if_neg hneg]
    by_cases hd : d = l.length
    · rw [if_pos hd]
      exact aWf_append q l _ hwf rfl
    · rw [if_neg hd]
      cases hop : aOpAt l d with
      | none => exact hwf
      | some op =>
        simp only
        by_cases hexp : op.gate.isExpZ = true
        · rw [if_pos hexp]
          exact aWf_set q l d _ hwf (fun op2 h => by cases h; rfl)
        · rw [if_neg hexp]
          exact hwf

theorem drainInto_sim (tol : ℚ) (q d : Nat) (acc : ℚ) (l : List (Option Operation))
    (hwf : aWf q l) :
    drainInto tol q d acc (sqC l) = sqC (aDrain tol q d acc l) := by
  unfold drainInto aDrain
  rw [sqC_length]
  by_cases hneg : isNegligibleTurn acc tol = true
  · rw [if_pos hneg, if_pos hneg]
  · rw [if_neg hneg, if_neg hneg]
    by_cases hd : d = l.length
    · rw [if_pos hd, if_pos hd]
      exact sqC_append q _ l hwf
    · rw [if_neg hd, if_neg hd]
      rw [sqC_operationAt q l d hwf]
      cases hop : aOpAt l d with
      | none => rfl
      | some op =>
        simp only
        by_cases hexp : op.gate.isExpZ = true
        · rw [if_pos hexp, if_pos hexp]
          exact sqC_clear_insert q [q] _ l d (List.mem_singleton.2 rfl) hwf
            (aOpAt_lt l d op hop)
        · rw [if_neg hexp, if_neg hexp]

theorem aRange_wf (tol : ℚ) (q s d : Nat) (l : List (Option Operation))
    (hwf : aWf q l) : aWf q (aRange tol q s d l) := by
  show aWf q (aDrain tol q d ((List.range' s (d - s)).foldl (aStep q) (l, 0)).2
    ((List.range' s (d - s)).foldl (aStep q) (l, 0)).1)
  exact aDrain_wf tol q d _ _ (optimizeRangeFold_sim q _ l 0 hwf).2

theorem optimizeRange_sim (tol : ℚ) (q s d : Nat) (l : List (Option Operation))
    (hwf : aWf q l) :
    optimizeRange tol q s d (sqC l) = sqC (aRange tol q s d l) := by
  have hf := optimizeRangeFold_sim q (List.range' s (d - s)) l 0 hwf
  have hgoal1 : optimizeRange tol q s d (sqC l) =
      drainInto tol q d ((List.range' s (d - s)).foldl (optimizeRangeStep q) (sqC l, 0)).2
        ((List.range' s (d - s)).foldl (optimizeRangeStep q) (sqC l, 0)).1 := rfl
  have hgoal2 : aRange tol q s d l =
      aDrain tol q d ((List.range' s (d - s)).foldl (aStep q) (l, 0)).2
        ((List.range' s (d - s)).foldl (aStep q) (l, 0)).1 := rfl
  rw [hgoal1, hgoal2, hf.1]
  exact drainInto_sim tol q d _ _ hf.2

theorem ejectGo_sim (tol : ℚ) (q : Nat) :
    ∀ (L : List Nat) (l : List (Option Operation)) (startZ prevZ : Option Nat)
    (evs : List RangeEv), aWf q l →
    (ejectGo tol q L (sqC l) startZ prevZ evs).1 = sqC (aGo tol q L l startZ prevZ) ∧
    aWf q (aGo tol q L l startZ prevZ) := by
  intro L
  induction L with
  | nil =>
    intro l startZ prevZ evs hwf
    cases startZ with
    | none => exact ⟨rfl, hwf⟩
    | some s =>
      simp only [ejectGo, aGo]
      rw [sqC_length]
      exact ⟨optimizeRange_sim tol q s l.length l hwf, aRange_wf tol q s l.length l hwf⟩
  | cons i L ih =>
    intro l startZ prevZ evs hwf
    simp only [ejectGo, aGo]
    rw [sqC_operationAt q l i hwf]
    cases hop : aOpAt l i with
    | none => exact ih l startZ prevZ evs hwf
    | some op =>
      cases startZ with
      | none =>
        by_cases htrig : (op.gate.isKnownZ && !op.gate.halfTurns.isSym) = true
        · simp only [if_pos htrig]
          exact ih l (some i) none evs hwf
        · simp only [if_neg htrig]
          exact ih l none prevZ evs hwf
      | some s =>
        by_cases hmeas : op.gate.isMeas = true
        · simp only [if_pos hmeas]
          rw [optimizeRange_sim tol q s i l hwf]
          exact ih (aRange tol q s i l) none prevZ _ (aRange_wf tol q s i l hwf)
        · simp only [if_neg hmeas]
          by_cases htrig : (op.gate.isKnownZ && !op.gate.halfTurns.isSym) = true
          · simp only [if_pos htrig]
            exact ih l (some s) (some i) evs hwf
          · simp only [if_neg htrig]
            by_cases hph : (!op.gate.isPhaseable) = true
            · simp only [if_pos hph]
              cases prevZ with
              | none => exact ih l none none evs hwf
              | some p =>
                simp only
                rw [optimizeRange_sim tol q s p l hwf]
                exact ih (aRange tol q s p l) none (some p) _ (aRange_wf tol q s p l hwf)
            · simp only [if_neg hph]
              exact ih l (some s) prevZ evs hwf

theorem ejectQubit_sim (tol : ℚ) (q : Nat) (l : List (Option Operation))
    (hwf : aWf q l) :
    ejectQubit tol q (sqC l) = sqC (aScan tol q l) ∧ aWf q (aScan tol q l) := by
  unfold ejectQubit ejectQubitEv aScan
  rw [sqC_length]
  exact ejectGo_sim tol q (List.range l.length) l none none [] hwf

/-- Whether an abstract entry is a trigger: a known Z gate with a numeric
parameter, which starts or extends a drain range. -/
def isTrigger : Option Operation → Bool
  | some op => op.gate.isKnownZ && !op.gate.halfTurns.isSym
  | none => false

/-- Whether an abstract entry is transparent to the scan: an empty slot or
a phaseable gate. -/
def isSkipE : Option Operation → Bool
  | some op => op.gate.isPhaseable
  | none => true

/-- Whether an abstract entry ends a drain range as its obstruction:
present, and neither a measurement, nor a trigger, nor phaseable. -/
def isObstrE : Option Operation → Bool
  | some op => !op.gate.isMeas && !(op.gate.isKnownZ && !op.gate.halfTurns.isSym) &&
      !op.gate.isPhaseable
  | none => false

theorem phaseable_not_meas (g : Gate) (h : g.isPhaseable = true) : g.isMeas = false := by
  cases g <;> simp_all [Gate.isPhaseable, Gate.isMeas]

theorem skip_not_trigger (o : Option Operation) (h : isSkipE o = true) :
    isTrigger o = false := by
  cases o with
  | none => rfl
  | some op =>
    have hph : op.gate.isPhaseable = true := h
    show (op.gate.isKnownZ && !op.gate.halfTurns.isSym) = false
    rw [isPhaseable_not_knownZ op.gate hph]
    rfl

theorem obstr_elim (o : Option Operation) (h : isObstrE o = true) :
    ∃ op, o = some op ∧ op.gate.isMeas = false ∧
      (op.gate.isKnownZ && !op.gate.halfTurns.isSym) = false ∧
      op.gate.isPhaseable = false := by
  cases o with
  | none => cases h
  | some op =>
    refine ⟨op, rfl, ?_, ?_, ?_⟩ <;>
      simp only [isObstrE, Bool.and_eq_true, Bool.not_eq_true'] at h
    · exact h.1.1
    · exact h.1.2
    · exact h.2

theorem obstr_not_trigger (o : Option Operation) (h : isObstrE o = true) :
    isTrigger o = false := by
  obtain ⟨op, rfl, _, htr, _⟩ := obstr_elim o h
  exact htr

theorem trigger_elim (o : Option Operation) (h : isTrigger o = true) :
    ∃ op, o = some op ∧ op.gate.isKnownZ = true ∧ op.gate.halfTurns.isSym = false := by
  cases o with
  | none => cases h
  | some op =>
    have h2 : (op.gate.isKnownZ && !op.gate.halfTurns.isSym) = true := h
    rw [Bool.and_eq_true, Bool.not_eq_true'] at h2
    exact ⟨op, rfl, h2.1, h2.2⟩

/-- The trigger at `z` is followed, through transparent entries only, by an
obstruction strictly before `b`. -/
def resolvedAt (l : List (Option Operation)) (z b : Nat) : Prop :=
  ∃ w, z < w ∧ w < b ∧ (∀ j, z < j → j < w → isSkipE (aOpAt l j) = true) ∧
    isObstrE (aOpAt l w) = true

/-- Every trigger strictly before `b` is resolved strictly before `b`. -/
def Dlt (l : List (Option Operation)) (b : Nat) : Prop :=
  ∀ z, z < b → isTrigger (aOpAt l z) = true → resolvedAt l z b

/-- The normal form left by one EjectZ run on a single-qubit timeline:
every trigger is either resolved by a later obstruction, or is the final
entry, an ExpZ gate holding a non-negligible numeric phase. -/
def normalForm (tol : ℚ) (q : Nat) (l : List (Option Operation)) : Prop :=
  ∀ z, isTrigger (aOpAt l z) = true →
    resolvedAt l z l.length ∨
    (z = l.length - 1 ∧ ∃ h : ℚ, aOpAt l z = some ⟨.expZ (.val h), [q]⟩ ∧
      isNegligibleTurn (h / 2) tol = false)

theorem set_eq_self_of_get? {α : Type} (l : List α) (i : Nat) (a : α)
    (h : l.get? i = some a) : l.set i a = l := by
  induction l generalizing i with
  | nil => cases h
  | cons b l ih =>
    cases i with
    | zero =>
      cases h
      rfl
    | succ i =>
      simp only [List.set_cons_succ]
      rw [ih i h]

theorem aGo_skip_accum (tol : ℚ) (q : Nat) (L1 : List Nat) (L2 : List Nat)
    (l : List (Option Operation)) (s : Nat) (prevZ : Option Nat)
    (h : ∀ j ∈ L1, isSkipE (aOpAt l j) = true) :
    aGo tol q (L1 ++ L2) l (some s) prevZ = aGo tol q L2 l (some s) prevZ := by
  induction L1 with
  | nil => rfl
  | cons j L1 ih =>
    rw [List.cons_append]
    simp only [aGo]
    cases hop : aOpAt l j with
    | none => exact ih (fun x hx => h x (List.mem_cons_of_mem j hx))
    | some op =>
      have hsk := h j (List.mem_cons_self j L1)
      rw [hop] at hsk
      have hph : op.gate.isPhaseable = true := hsk
      have hmeas : op.gate.isMeas = false := phaseable_not_meas op.gate hph
      have hkz : op.gate.isKnownZ = false := isPhaseable_not_knownZ op.gate hph
      simp only [hmeas, hkz, hph, Bool.false_and, Bool.not_true, Bool.false_eq_true,
        if_false]
      exact ih (fun x hx => h x (List.mem_cons_of_mem j hx))

theorem aGo_id_of_normal (tol : ℚ) (q : Nat) :
    ∀ (m : Nat), ∀ (i : Nat) (l : List (Option Operation)) (prevZ : Option Nat),
    i + m = l.length → normalForm tol q l →
    aGo tol q (List.range' i m) l none prevZ = l := by
  intro m
  induction m using Nat.strong_induction_on with
  | _ m ih =>
    intro i l prevZ hlen hnf
    cases m with
    | zero => rfl
    | succ m0 =>
      rw [range'_eq_cons i (m0 + 1) (by omega)]
      simp only [aGo, Nat.add_sub_cancel]
      cases hop : aOpAt l i with
      | none => exact ih m0 (by omega) (i + 1) l prevZ (by omega) hnf
      | some op =>
        by_cases htrig : (op.gate.isKnownZ && !op.gate.halfTurns.isSym) = true
        · simp only [if_pos htrig]
          have htrig2 : isTrigger (aOpAt l i) = true := by
            rw [hop]
            exact htrig
          rcases hnf i htrig2 with hres | ⟨hz, hval, hopv, hnneg⟩
          · obtain ⟨w, hiw, hwlen, hskips, hobstr⟩ := hres
            have hsplit : List.range' (i + 1) m0 =
                List.range' (i + 1) (w - i - 1) ++ List.range' w (m0 - (w - i - 1)) := by
              have h2 := range'_split (i + 1) m0 (w - i - 1) (by omega)
              rw [(by omega : i + 1 + (w - i - 1) = w)] at h2
              exact h2
            rw [hsplit]
            rw [aGo_skip_accum tol q _ _ l i none (by
              intro j hj
              rw [List.mem_range'_1] at hj
              exact hskips j (by omega) (by omega))]
            rw [range'_eq_cons w (m0 - (w - i - 1)) (by omega)]
            simp only [aGo]
            obtain ⟨opw, hopw, hwm, hwt, hwp⟩ := obstr_elim _ hobstr
            rw [hopw]
            simp only [hwm, hwt, hwp, Bool.not_false, Bool.false_eq_true, if_false,
              if_true]
            exact ih (m0 - (w - i - 1) - 1) (by omega) (w + 1) l none (by omega) hnf
          · have hm0 : m0 = 0 := by
              have hil := aOpAt_lt l i op hop
              omega
            subst hm0
            show aGo tol q [] l (some i) none = l
            simp only [aGo]
            have hil := aOpAt_lt l i op hop
            have hr1 : List.range' i (l.length - i) = [i] := by
              rw [(by omega : l.length - i = 1)]
              rfl
            have hstep : aStep q (l, 0) i = (l.set i none, 0 + hval / 2) := by
              simp only [aStep, hopv]
              rfl
            have hfold : (List.range' i (l.length - i)).foldl (aStep q) (l, 0) =
                (l.set i none, 0 + hval / 2) := by
              rw [hr1]
              simp only [List.foldl_cons, List.foldl_nil]
              rw [hstep]
            show aDrain tol q l.length
              ((List.range' i (l.length - i)).foldl (aStep q) (l, 0)).2
              ((List.range' i (l.length - i)).foldl (aStep q) (l, 0)).1 = l
            rw [hfold]
            show aDrain tol q l.length (0 + hval / 2) (l.set i none) = l
            unfold aDrain
            rw [zero_add]
            rw [if_neg (by rw [hnneg]; exact Bool.false_ne_true)]
            rw [if_pos (by rw [List.length_set])]
            unfold aAppend
            have hlast : aOpAt (l.set i none) ((l.set i none).length - 1) = none := by
              rw [List.length_set, (by omega : l.length - 1 = i)]
              unfold aOpAt
              rw [List.get?_set_eq, aOpAt_eq_some l i _ hopv]
              rfl
            rw [if_pos ⟨by rw [List.length_set]; omega, hlast⟩]
            rw [List.length_set, (by omega : l.length - 1 = i), List.set_set]
            have hv : (2 : ℚ) * (hval / 2) = hval := by ring
            rw [hv]
            exact set_eq_self_of_get? l i _ (aOpAt_eq_some l i _ hopv)
        · simp only [if_neg htrig]
          exact ih m0 (by omega) (i + 1) l prevZ (by omega) hnf

theorem aScan_id_of_normal (tol : ℚ) (q : Nat) (l : List (Option Operation))
    (hnf : normalForm tol q l) : aScan tol q l = l := by
  unfold aScan
  rw [List.range_eq_range']
  exact aGo_id_of_normal tol q l.length 0 l none (by omega) hnf

theorem aStep_length (q : Nat) (st : List (Option Operation) × ℚ) (i : Nat) :
    (aStep q st i).1.length = st.1.length := by
  unfold aStep
  cases hop : aOpAt st.1 i with
  | none => rfl
  | some op =>
    simp only
    by_cases hz : op.gate.isKnownZ = true
    · rw [if_pos hz]
      exact List.length_set st.1 i none
    · rw [if_neg hz]
      by_cases hp : op.gate.isPhaseable = true
      · rw [if_pos hp]
        exact List.length_set st.1 i _
      · rw [if_neg hp]

theorem aStep_get_ne (q : Nat) (st : List (Option Operation) × ℚ) (i k : Nat)
    (hk : k ≠ i) : (aStep q st i).1.get? k = st.1.get? k := by
  unfold aStep
  cases hop : aOpAt st.1 i with
  | none => rfl
  | some op =>
    simp only
    by_cases hz : op.gate.isKnownZ = true
    · rw [if_pos hz]
      exact List.get?_set_ne _ _ (fun h => hk h.symm)
    · rw [if_neg hz]
      by_cases hp : op.gate.isPhaseable = true
      · rw [if_pos hp]
        exact List.get?_set_ne _ _ (fun h => hk h.symm)
      · rw [if_neg hp]

theorem aOpAt_step_ne (q : Nat) (st : List (Option Operation) × ℚ) (i k : Nat)
    (hk : k ≠ i) : aOpAt (aStep q st i).1 k = aOpAt st.1 k := by
  unfold aOpAt
  rw [aStep_get_ne q st i k hk]

theorem aOpAt_set_self (l : List (Option Operation)) (i : Nat) (o : Option Operation)
    (hi : i < l.length) : aOpAt (l.set i o) i = o := by
  unfold aOpAt
  rw [List.get?_set_eq]
  cases hg : l.get? i with
  | none =>
    have := List.get?_eq_none.1 hg
    omega
  | some x => rfl

theorem phaseBy_phaseable (g : Gate) (t : ℚ) (k : Nat) (h : g.isPhaseable = true) :
    (g.phaseBy t k).isPhaseable = true := by
  cases g <;> simp_all [Gate.isPhaseable, Gate.phaseBy]

theorem aStep_skip_stable (q : Nat) (st : List (Option Operation) × ℚ) (i k : Nat)
    (h : isSkipE (aOpAt st.1 k) = true) :
    isSkipE (aOpAt (aStep q st i).1 k) = true := by
  by_cases hk : k = i
  · subst hk
    unfold aStep
    cases hop : aOpAt st.1 k with
    | none => exact h
    | some op =>
      rw [hop] at h
      have hph : op.gate.isPhaseable = true := h
      have hkz : op.gate.isKnownZ = false := isPhaseable_not_knownZ op.gate hph
      simp only [hkz, Bool.false_eq_true, if_false, hph, if_true]
      show isSkipE (aOpAt (st.1.set k
        (some ⟨op.gate.phaseBy (-st.2) (op.qubits.indexOf q), op.qubits⟩)) k) = true
      rw [aOpAt_set_self st.1 k _ (aOpAt_lt st.1 k op hop)]
      exact phaseBy_phaseable op.gate _ _ hph
  · rw [aOpAt_step_ne q st i k hk]
    exact h

theorem aFold_length (q : Nat) (L : List Nat) (l : List (Option Operation)) (acc : ℚ) :
    (L.foldl (aStep q) (l, acc)).1.length = l.length := by
  induction L generalizing l acc with
  | nil => rfl
  | cons i L ih =>
    simp only [List.foldl_cons]
    rw [show aStep q (l, acc) i =
      ((aStep q (l, acc) i).1, (aStep q (l, acc) i).2) from rfl]
    rw [ih]
    exact aStep_length q (l, acc) i

theorem aFold_get_ne (q : Nat) (L : List Nat) (l : List (Option Operation)) (acc : ℚ)
    (k : Nat) (hk : ∀ j ∈ L, k ≠ j) :
    (L.foldl (aStep q) (l, acc)).1.get? k = l.get? k := by
  induction L generalizing l acc with
  | nil => rfl
  | cons i L ih =>
    simp only [List.foldl_cons]
    rw [show aStep q (l, acc) i =
      ((aStep q (l, acc) i).1, (aStep q (l, acc) i).2) from rfl]
    rw [ih _ _ (fun j hj => hk j (List.mem_cons_of_mem i hj))]
    exact aStep_get_ne q (l, acc) i k (hk i (List.mem_cons_self i L))

theorem aFold_opAt_ne (q : Nat) (L : List Nat) (l : List (Option Operation)) (acc : ℚ)
    (k : Nat) (hk : ∀ j ∈ L, k ≠ j) :
    aOpAt (L.foldl (aStep q) (l, acc)).1 k = aOpAt l k := by
  unfold aOpAt
  rw [aFold_get_ne q L l acc k hk]

theorem aFold_skip_stable (q : Nat) (L : List Nat) (l : List (Option Operation))
    (acc : ℚ) (k : Nat) (h : isSkipE (aOpAt l k) = true) :
    isSkipE (aOpAt (L.foldl (aStep q) (l, acc)).1 k) = true := by
  induction L generalizing l acc with
  | nil => exact h
  | cons i L ih =>
    simp only [List.foldl_cons]
    rw [show aStep q (l, acc) i =
      ((aStep q (l, acc) i).1, (aStep q (l, acc) i).2) from rfl]
    exact ih _ _ (aStep_skip_stable q (l, acc) i k h)

theorem aFold_skip (q : Nat) (L : List Nat) (l : List (Option Operation)) (acc : ℚ)
    (h : ∀ j ∈ L, isSkipE (aOpAt l j) = true ∨ isTrigger (aOpAt l j) = true) :
    ∀ k ∈ L, isSkipE (aOpAt (L.foldl (aStep q) (l, acc)).1 k) = true := by
  induction L generalizing l acc with
  | nil =>
    intro k hk
    cases hk
  | cons i L ih =>
    intro k hk
    simp only [List.foldl_cons]
    rw [show aStep q (l, acc) i =
      ((aStep q (l, acc) i).1, (aStep q (l, acc) i).2) from rfl]
    have hstep_i : isSkipE (aOpAt (aStep q (l, acc) i).1 i) = true := by
      rcases h i (List.mem_cons_self i L) with hs | ht
      · exact aStep_skip_stable q (l, acc) i i hs
      · obtain ⟨op, hop, hkz, hsym⟩ := trigger_elim _ ht
        unfold aStep
        rw [hop]
        simp only [hkz, if_true]
        show isSkipE (aOpAt (l.set i none) i) = true
        rw [aOpAt_set_self l i none (aOpAt_lt l i op hop)]
        rfl
    by_cases hki : k = i
    · subst hki
      exact aFold_skip_stable q L _ _ k hstep_i
    · have hkL : k ∈ L := by
        rcases List.mem_cons.1 hk with h2 | h2
        · exact absurd h2 hki
        · exact h2
      apply ih _ _ ?_ k hkL
      intro j hj
      by_cases hji : j = i
      · subst hji
        exact Or.inl hstep_i
      · rw [aOpAt_step_ne q (l, acc) i j hji]
        exact h j (List.mem_cons_of_mem i hj)

theorem resolvedAt_mono (l : List (Option Operation)) (z b b2 : Nat) (h : b ≤ b2)
    (hr : resolvedAt l z b) : resolvedAt l z b2 := by
  obtain ⟨w, h1, h2, h3, h4⟩ := hr
  exact ⟨w, h1, by omega, h3, h4⟩

theorem resolvedAt_transfer (l l2 : List (Option Operation)) (z b : Nat)
    (hch : ∀ j, z < j → j < b → aOpAt l2 j = aOpAt l j)
    (hr : resolvedAt l z b) : resolvedAt l2 z b := by
  obtain ⟨w, h1, h2, h3, h4⟩ := hr
  refine ⟨w, h1, h2, ?_, ?_⟩
  · intro j hj1 hj2
    rw [hch j hj1 (by omega)]
    exact h3 j hj1 hj2
  · rw [hch w h1 h2]
    exact h4

theorem Dlt_below_transfer (l l2 : List (Option Operation)) (s b : Nat)
    (hch : ∀ j, j < s → aOpAt l2 j = aOpAt l j)
    (hD : Dlt l s) (hsb : s ≤ b)
    (hup : ∀ z, s ≤ z → z < b → isTrigger (aOpAt l2 z) = false) :
    Dlt l2 b := by
  intro z hz ht
  by_cases hzs : z < s
  · have ht2 : isTrigger (aOpAt l z) = true := by
      rw [← hch z hzs]
      exact ht
    apply resolvedAt_mono l2 z s b hsb
    exact resolvedAt_transfer l l2 z s (fun j hj1 hj2 => hch j hj2) (hD z hzs ht2)
  · rw [hup z (by omega) hz] at ht
    cases ht

/-- The effect of one mid-scan drain range on the abstract timeline: length
kept, entries before the start and after the drain untouched, the interior
reduced to transparent entries, and a non-ExpZ drain entry untouched. -/
theorem aRange_mid (tol : ℚ) (q : Nat) (s d : Nat) (l : List (Option Operation))
    (hsd : s ≤ d) (hdlt : d < l.length)
    (hTrigS : isTrigger (aOpAt l s) = true)
    (hmid : ∀ j, s < j → j < d →
      isSkipE (aOpAt l j) = true ∨ isTrigger (aOpAt l j) = true) :
    (aRange tol q s d l).length = l.length ∧
    (∀ j, j < s ∨ (d < j) → aOpAt (aRange tol q s d l) j = aOpAt l j) ∧
    (∀ j, s ≤ j → j < d → isSkipE (aOpAt (aRange tol q s d l) j) = true) ∧
    (∀ op, aOpAt l d = some op → op.gate.isExpZ = false →
      aOpAt (aRange tol q s d l) d = aOpAt l d) := by
  have hFlen : ((List.range' s (d - s)).foldl (aStep q) (l, 0)).1.length = l.length :=
    aFold_length q _ l 0
  have hFne : ∀ k, (k < s ∨ d ≤ k) →
      aOpAt ((List.range' s (d - s)).foldl (aStep q) (l, 0)).1 k = aOpAt l k := by
    intro k hk
    apply aFold_opAt_ne
    intro j hj
    rw [List.mem_range'_1] at hj
    omega
  have hFskip : ∀ k, s ≤ k → k < d →
      isSkipE (aOpAt ((List.range' s (d - s)).foldl (aStep q) (l, 0)).1 k) = true := by
    intro k hk1 hk2
    apply aFold_skip q _ l 0 ?_ k (List.mem_range'_1.2 ⟨hk1, by omega⟩)
    intro j hj
    rw [List.mem_range'_1] at hj
    by_cases hjs : j = s
    · subst hjs
      exact Or.inr hTrigS
    · exact hmid j (by omega) (by omega)
  have hshape : aRange tol q s d l =
      aDrain tol q d ((List.range' s (d - s)).foldl (aStep q) (l, 0)).2
        ((List.range' s (d - s)).foldl (aStep q) (l, 0)).1 := rfl
  rw [hshape]
  unfold aDrain
  by_cases hneg : isNegligibleTurn ((List.range' s (d - s)).foldl (aStep q) (l, 0)).2
      tol = true
  · rw [if_pos hneg]
    exact ⟨hFlen, fun j hj => hFne j (by omega), hFskip,
      fun op hop hexp => hFne d (Or.inr (by omega))⟩
  · rw [if_neg hneg]
    rw [if_neg (by omega : ¬ d =
      ((List.range' s (d - s)).foldl (aStep q) (l, 0)).1.length)]
    cases hdop : aOpAt ((List.range' s (d - s)).foldl (aStep q) (l, 0)).1 d with
    | none =>
      exact ⟨hFlen, fun j hj => hFne j (by omega), hFskip,
        fun op hop hexp => hFne d (Or.inr (by omega))⟩
    | some op =>
      simp only
      by_cases hexp : op.gate.isExpZ = true
      · rw [if_pos hexp]
        refine ⟨?_, ?_, ?_, ?_⟩
        · rw [List.length_set]
          exact hFlen
        · intro j hj
          unfold aOpAt
          rw [List.get?_set_ne _ _ (by omega : d ≠ j)]
          exact hFne j (by omega)
        · intro j hj1 hj2
          show isSkipE (aOpAt (List.set _ d _) j) = true
          unfold aOpAt
          rw [List.get?_set_ne _ _ (by omega : d ≠ j)]
          exact hFskip j hj1 hj2
        · intro op2 hop2 hexp2
          exfalso
          rw [hFne d (Or.inr (by omega)), hop2] at hdop
          cases hdop
          rw [hexp] at hexp2
          cases hexp2
      · rw [if_neg hexp]
        exact ⟨hFlen, fun j hj => hFne j (by omega), hFskip,
          fun op2 hop2 hexp2 => hFne d (Or.inr (by omega))⟩

theorem obstr_intro (op : Operation) (h1 : op.gate.isMeas = false)
    (h2 : (op.gate.isKnownZ && !op.gate.halfTurns.isSym) = false)
    (h3 : op.gate.isPhaseable = false) : isObstrE (some op) = true := by
  simp [isObstrE, h1, h2, h3]

theorem trigger_lt (l : List (Option Operation)) (z : Nat)
    (h : isTrigger (aOpAt l z) = true) : z < l.length := by
  obtain ⟨op, hop, _, _⟩ := trigger_elim _ h
  exact aOpAt_lt l z op hop

/-- The endgame drain at the end of the scan: with the drained region made
transparent, the final drain leaves a normal form, appending the leftover
phase as a final ExpZ entry exactly when it is not negligible. -/
theorem aEnd_normal (tol : ℚ) (q : Nat) (l A : List (Option Operation)) (acc : ℚ)
    (s : Nat) (hs : s < l.length)
    (hFlen : A.length = l.length)
    (hFne : ∀ k, k < s → aOpAt A k = aOpAt l k)
    (hFskip : ∀ k, s ≤ k → k < l.length → isSkipE (aOpAt A k) = true)
    (hDs : Dlt l s) :
    normalForm tol q (aDrain tol q l.length acc A) := by
  unfold aDrain
  by_cases hneg : isNegligibleTurn acc tol = true
  · rw [if_pos hneg]
    intro z ht
    left
    have hzlt : z < l.length := by
      have := trigger_lt _ z ht
      omega
    by_cases hzs : z < s
    · have ht2 : isTrigger (aOpAt l z) = true := by
        rw [← hFne z hzs]
        exact ht
      apply resolvedAt_mono _ z s _ (by omega)
      exact resolvedAt_transfer l _ z s (fun j hj1 hj2 => hFne j hj2) (hDs z hzs ht2)
    · rw [skip_not_trigger _ (hFskip z (by omega) hzlt)] at ht
      cases ht
  · rw [if_neg hneg]
    rw [if_pos hFlen.symm]
    unfold aAppend
    by_cases happ : 1 ≤ A.length ∧ aOpAt A (A.length - 1) = none
    · rw [if_pos happ]
      obtain ⟨happ1, happ2⟩ := happ
      intro z ht
      have hzlt : z < l.length := by
        have h2 := trigger_lt _ z ht
        rw [List.length_set] at h2
        omega
      by_cases hz1 : z = l.length - 1
      · right
        constructor
        · rw [List.length_set]
          omega
        · refine ⟨2 * acc, ?_, ?_⟩
          · rw [hz1, show l.length - 1 = A.length - 1 from by omega]
            rw [aOpAt_set_self _ _ _ (by omega)]
          · rw [show (2 * acc) / 2 = acc from by ring]
            cases hb : isNegligibleTurn acc tol
            · rfl
            · exact absurd hb hneg
      · have hentry : aOpAt (A.set (A.length - 1)
            (some ⟨.expZ (.val (2 * acc)), [q]⟩)) z = aOpAt A z := by
          unfold aOpAt
          rw [List.get?_set_ne _ _ (by omega)]
        rw [hentry] at ht
        by_cases hzs : z < s
        · left
          have ht2 : isTrigger (aOpAt l z) = true := by
            rw [← hFne z hzs]
            exact ht
          apply resolvedAt_mono _ z s _ (by rw [List.length_set]; omega)
          apply resolvedAt_transfer l _ z s ?_ (hDs z hzs ht2)
          intro j hj1 hj2
          unfold aOpAt
          rw [List.get?_set_ne _ _ (by omega)]
          exact hFne j hj2
        · rw [skip_not_trigger _ (hFskip z (by omega) hzlt)] at ht
          cases ht
    · rw [if_neg happ]
      intro z ht
      have hzlt : z < l.length + 1 := by
        have h2 := trigger_lt _ z ht
        rw [List.length_append, List.length_singleton] at h2
        omega
      by_cases hz1 : z = l.length
      · right
        constructor
        · rw [List.length_append, List.length_singleton]
          omega
        · refine ⟨2 * acc, ?_, ?_⟩
          · rw [hz1, show l.length = A.length from hFlen.symm]
            unfold aOpAt
            rw [List.get?_concat_length]
            rfl
          · rw [show (2 * acc) / 2 = acc from by ring]
            cases hb : isNegligibleTurn acc tol
            · rfl
            · exact absurd hb hneg
      · have hentry : aOpAt (A ++ [some ⟨.expZ (.val (2 * acc)), [q]⟩]) z =
            aOpAt A z := by
          unfold aOpAt
          rw [List.get?_append (by omega)]
        rw [hentry] at ht
        by_cases hzs : z < s
        · left
          have ht2 : isTrigger (aOpAt l z) = true := by
            rw [← hFne z hzs]
            exact ht
          apply resolvedAt_mono _ z s _
            (by rw [List.length_append, List.length_singleton]; omega)
          apply resolvedAt_transfer l _ z s ?_ (hDs z hzs ht2)
          intro j hj1 hj2
          unfold aOpAt
          rw [List.get?_append (by omega)]
          exact hFne j hj2
        · rw [skip_not_trigger _ (hFskip z (by omega) (by omega))] at ht
          cases ht


/-- The central invariant of the scan: at every yield the drained region is
reduced to transparent entries, so every trigger ends up resolved by an
obstruction, except a final non-negligible drain appended at the end. -/
theorem aGo_normal (tol : ℚ) (q : Nat) :
    ∀ (m : Nat), ∀ (i : Nat) (l : List (Option Operation)) (startZ prevZ : Option Nat),
    i + m = l.length →
    (startZ = none → Dlt l i) →
    (∀ s, startZ = some s → s < i ∧ isTrigger (aOpAt l s) = true ∧ Dlt l s ∧
      ∀ j, s < j → j < i → isSkipE (aOpAt l j) = true ∨ isTrigger (aOpAt l j) = true) →
    (∀ s p, startZ = some s → prevZ = some p → s < p ∧ p < i ∧
      isTrigger (aOpAt l p) = true ∧ ∀ j, p < j → j < i → isSkipE (aOpAt l j) = true) →
    (∀ s, startZ = some s → prevZ = none →
      ∀ j, s < j → j < i → isSkipE (aOpAt l j) = true) →
    normalForm tol q (aGo tol q (List.range' i m) l startZ prevZ) := by
  intro m
  induction m with
  | zero =>
    intro i l startZ prevZ hlen hIdle hAcc hPrevS hPrevN
    cases startZ with
    | none =>
      show normalForm tol q l
      have hD := hIdle rfl
      intro z ht
      left
      have hzlt : z < l.length := trigger_lt l z ht
      exact resolvedAt_mono l z i l.length (by omega) (hD z (by omega) ht)
    | some s =>
      obtain ⟨hsi, hTrigS, hDs, hmid⟩ := hAcc s rfl
      show normalForm tol q (aRange tol q s l.length l)
      have hshape : aRange tol q s l.length l =
          aDrain tol q l.length
            ((List.range' s (l.length - s)).foldl (aStep q) (l, 0)).2
            ((List.range' s (l.length - s)).foldl (aStep q) (l, 0)).1 := rfl
      rw [hshape]
      apply aEnd_normal tol q l _ _ s (by omega) (aFold_length q _ l 0) ?_ ?_ hDs
      · intro k hk
        apply aFold_opAt_ne
        intro j hj
        rw [List.mem_range'_1] at hj
        omega
      · intro k hk1 hk2
        apply aFold_skip q _ l 0 ?_ k (List.mem_range'_1.2 ⟨hk1, by omega⟩)
        intro j hj
        rw [List.mem_range'_1] at hj
        by_cases hjs : j = s
        · subst hjs
          exact Or.inr hTrigS
        · exact hmid j (by omega) (by omega)
  | succ m0 ih =>
    intro i l startZ prevZ hlen hIdle hAcc hPrevS hPrevN
    rw [range'_eq_cons i (m0 + 1) (by omega)]
    simp only [aGo, Nat.add_sub_cancel]
    cases hop : aOpAt l i with
    | none =>
      apply ih (i + 1) l startZ prevZ (by omega) ?_ ?_ ?_ ?_
      · intro hsz
        intro z hz ht
        by_cases hzi : z < i
        · exact resolvedAt_mono l z i (i + 1) (by omega) (hIdle hsz z hzi ht)
        · have hzi2 : z = i := by omega
          rw [hzi2, hop] at ht
          cases ht
      · intro s hs
        obtain ⟨h1, h2, h3, h4⟩ := hAcc s hs
        refine ⟨by omega, h2, h3, ?_⟩
        intro j hj1 hj2
        by_cases hji : j < i
        · exact h4 j hj1 hji
        · have hji2 : j = i := by omega
          rw [hji2, hop]
          exact Or.inl rfl
      · intro s p hs hp
        obtain ⟨h1, h2, h3, h4⟩ := hPrevS s p hs hp
        refine ⟨h1, by omega, h3, ?_⟩
        intro j hj1 hj2
        by_cases hji : j < i
        · exact h4 j hj1 hji
        · have hji2 : j = i := by omega
          rw [hji2, hop]
          rfl
      · intro s hs hp j hj1 hj2
        by_cases hji : j < i
        · exact hPrevN s hs hp j hj1 hji
        · have hji2 : j = i := by omega
          rw [hji2, hop]
          rfl
    | some op =>
      cases hsz : startZ with
      | none =>
        have hD := hIdle hsz
        by_cases htrig : (op.gate.isKnownZ && !op.gate.halfTurns.isSym) = true
        · simp only [if_pos htrig]
          apply ih (i + 1) l (some i) none (by omega) ?_ ?_ ?_ ?_
          · intro h
            cases h
          · intro s hs
            cases hs
            refine ⟨by omega, by rw [hop]; exact htrig, hD, ?_⟩
            intro j hj1 hj2
            exfalso
            omega
          · intro s p hs hp
            cases hp
          · intro s hs hp j hj1 hj2
            cases hs
            exfalso
            omega
        · simp only [if_neg htrig]
          apply ih (i + 1) l none prevZ (by omega) ?_ ?_ ?_ ?_
          · intro h
            intro z hz ht
            by_cases hzi : z < i
            · exact resolvedAt_mono l z i (i + 1) (by omega) (hD z hzi ht)
            · have hzi2 : z = i := by omega
              rw [hzi2, hop] at ht
              have ht2 : (op.gate.isKnownZ && !op.gate.halfTurns.isSym) = true := ht
              exact absurd ht2 htrig
          · intro s hs
            cases hs
          · intro s p hs hp
            cases hs
          · intro s hs hp
            cases hs
      | some s =>
        obtain ⟨hsi, hTrigS, hDs, hmid⟩ := hAcc s hsz
        have hdlt : i < l.length := by omega
        by_cases hmeas : op.gate.isMeas = true
        · simp only [if_pos hmeas]
          have hR := aRange_mid tol q s i l (by omega) hdlt hTrigS
            (fun j h1 h2 => hmid j h1 h2)
          apply ih (i + 1) (aRange tol q s i l) none prevZ (by rw [hR.1]; omega)
            ?_ ?_ ?_ ?_
          · intro h2
            apply Dlt_below_transfer l _ s (i + 1) (fun j hj => hR.2.1 j (Or.inl hj))
              hDs (by omega) ?_
            intro z hz1 hz2
            by_cases hzi : z < i
            · exact skip_not_trigger _ (hR.2.2.1 z hz1 hzi)
            · have hzi2 : z = i := by omega
              rw [hzi2]
              rw [hR.2.2.2 op hop (meas_not_expZ op.gate hmeas), hop]
              show (op.gate.isKnownZ && !op.gate.halfTurns.isSym) = false
              rw [meas_not_knownZ op.gate hmeas]
              rfl
          · intro s2 hs2
            cases hs2
          · intro s2 p hs2 hp
            cases hs2
          · intro s2 hs2 hp
            cases hs2
        · simp only [if_neg hmeas]
          by_cases htrig : (op.gate.isKnownZ && !op.gate.halfTurns.isSym) = true
          · simp only [if_pos htrig]
            apply ih (i + 1) l (some s) (some i) (by omega) ?_ ?_ ?_ ?_
            · intro h
              cases h
            · intro s2 hs2
              cases hs2
              refine ⟨by omega, hTrigS, hDs, ?_⟩
              intro j hj1 hj2
              by_cases hji : j < i
              · exact hmid j hj1 hji
              · have hji2 : j = i := by omega
                rw [hji2, hop]
                exact Or.inr htrig
            · intro s2 p hs2 hp
              cases hs2
              cases hp
              refine ⟨hsi, by omega, by rw [hop]; exact htrig, ?_⟩
              intro j hj1 hj2
              exfalso
              omega
            · intro s2 hs2 hp
              cases hp
          · simp only [if_neg htrig]
            by_cases hph : (!op.gate.isPhaseable) = true
            · simp only [if_pos hph]
              have hmeas2 : op.gate.isMeas = false := by
                cases hb : op.gate.isMeas
                · rfl
                · exact absurd hb hmeas
              have htrig2 : (op.gate.isKnownZ && !op.gate.halfTurns.isSym) = false := by
                cases hb : (op.gate.isKnownZ && !op.gate.halfTurns.isSym)
                · rfl
                · exact absurd hb htrig
              have hph2 : op.gate.isPhaseable = false := by
                cases hb : op.gate.isPhaseable
                · rfl
                · rw [hb] at hph
                  cases hph
              have hObstr : isObstrE (aOpAt l i) = true := by
                rw [hop]
                exact obstr_intro op hmeas2 htrig2 hph2
              cases hpz : prevZ with
              | some p =>
                obtain ⟨hsp, hpi, hTrigP, hppost⟩ := hPrevS s p hsz hpz
                have hR := aRange_mid tol q s p l (by omega) (by omega) hTrigS
                  (fun j h1 h2 => hmid j h1 (by omega))
                apply ih (i + 1) (aRange tol q s p l) none (some p)
                  (by rw [hR.1]; omega) ?_ ?_ ?_ ?_
                · intro h2
                  intro z hz ht
                  by_cases hzs : z < s
                  · have ht2 : isTrigger (aOpAt l z) = true := by
                      rw [← hR.2.1 z (Or.inl hzs)]
                      exact ht
                    apply resolvedAt_mono _ z s _ (by omega)
                    exact resolvedAt_transfer l _ z s
                      (fun j hj1 hj2 => hR.2.1 j (Or.inl hj2)) (hDs z hzs ht2)
                  · by_cases hzp : z < p
                    · rw [skip_not_trigger _ (hR.2.2.1 z (by omega) hzp)] at ht
                      cases ht
                    · by_cases hzp2 : z = p
                      · refine ⟨i, by omega, by omega, ?_, ?_⟩
                        · intro j hj1 hj2
                          rw [hR.2.1 j (Or.inr (by omega))]
                          exact hppost j (by omega) hj2
                        · rw [hR.2.1 i (Or.inr (by omega))]
                          exact hObstr
                      · by_cases hzi : z < i
                        · rw [hR.2.1 z (Or.inr (by omega))] at ht
                          rw [skip_not_trigger _ (hppost z (by omega) hzi)] at ht
                          cases ht
                        · have hzi2 : z = i := by omega
                          rw [hzi2, hR.2.1 i (Or.inr (by omega))] at ht
                          rw [obstr_not_trigger _ hObstr] at ht
                          cases ht
                · intro s2 hs2
                  cases hs2
                · intro s2 p2 hs2 hp2
                  cases hs2
                · intro s2 hs2 hp2
                  cases hs2
              | none =>
                apply ih (i + 1) l none none (by omega) ?_ ?_ ?_ ?_
                · intro h2
                  intro z hz ht
                  by_cases hzs : z < s
                  · exact resolvedAt_mono l z s (i + 1) (by omega) (hDs z hzs ht)
                  · by_cases hzs2 : z = s
                    · refine ⟨i, by omega, by omega, ?_, hObstr⟩
                      intro j hj1 hj2
                      exact hPrevN s hsz hpz j (by omega) hj2
                    · by_cases hzi : z < i
                      · rw [skip_not_trigger _ (hPrevN s hsz hpz z (by omega) hzi)] at ht
                        cases ht
                      · have hzi2 : z = i := by omega
                        rw [hzi2] at ht
                        rw [obstr_not_trigger _ hObstr] at ht
                        cases ht
                · intro s2 hs2
                  cases hs2
                · intro s2 p2 hs2 hp2
                  cases hs2
                · intro s2 hs2 hp2
                  cases hs2
            · simp only [if_neg hph]
              have hph2 : op.gate.isPhaseable = true := by
                cases hb : op.gate.isPhaseable
                · rw [hb] at hph
                  exact absurd rfl hph
                · rfl
              apply ih (i + 1) l (some s) prevZ (by omega) ?_ ?_ ?_ ?_
              · intro h2
                cases h2
              · intro s2 hs2
                cases hs2
                refine ⟨by omega, hTrigS, hDs, ?_⟩
                intro j hj1 hj2
                by_cases hji : j < i
                · exact hmid j hj1 hji
                · have hji2 : j = i := by omega
                  rw [hji2, hop]
                  exact Or.inl hph2
              · intro s2 p hs2 hp
                cases hs2
                obtain ⟨h1, h2, h3, h4⟩ := hPrevS s p hsz hp
                refine ⟨h1, by omega, h3, ?_⟩
                intro j hj1 hj2
                by_cases hji : j < i
                · exact h4 j hj1 hji
                · have hji2 : j = i := by omega
                  rw [hji2, hop]
                  exact hph2
              · intro s2 hs2 hp
                cases hs2
                intro j hj1 hj2
                by_cases hji : j < i
                · exact hPrevN s hsz hp j hj1 hji
                · have hji2 : j = i := by omega
                  rw [hji2, hop]
                  exact hph2

theorem aScan_normal (tol : ℚ) (q : Nat) (l : List (Option Operation)) :
    normalForm tol q (aScan tol q l) := by
  unfold aScan
  rw [List.range_eq_range']
  apply aGo_normal tol q l.length 0 l none none (by omega) ?_ ?_ ?_ ?_
  · intro h2 z hz ht
    exact absurd hz (by omega)
  · intro s hs
    cases hs
  · intro s p hs hp
    cases hs
  · intro s hs hp
    cases hs

theorem nodup_const_eq (x : Nat) (xs : List Nat) (q : Nat)
    (hnd : (x :: xs).Nodup) (hsub : ∀ y ∈ x :: xs, y = q) : x :: xs = [q] := by
  have hx : x = q := hsub x (List.mem_cons_self x xs)
  subst hx
  cases xs with
  | nil => rfl
  | cons y ys =>
    exfalso
    have hy : y = x := by
      rw [hsub y (List.mem_cons_of_mem x (List.mem_cons_self y ys))]
    rw [List.nodup_cons] at hnd
    apply hnd.1
    rw [← hy]
    exact List.mem_cons_self y ys

theorem allQubits_sq (q : Nat) (l : List (Option Operation)) (hwf : aWf q l) :
    (sqC l).allQubits = [] ∨ (sqC l).allQubits = [q] := by
  have hsub : ∀ x ∈ (sqC l).allQubits, x = q := by
    intro x hx
    rw [mem_allQubits] at hx
    obtain ⟨m, hm, op, hop, hxq⟩ := hx
    rw [show (sqC l).moments = l.map omom from rfl, List.mem_map] at hm
    obtain ⟨o, ho, rfl⟩ := hm
    cases o with
    | none => cases hop
    | some op2 =>
      have h2 := hwf _ ho op2 rfl
      rw [List.mem_singleton.1 hop, h2] at hxq
      exact List.mem_singleton.1 hxq
  have hnodup : (sqC l).allQubits.Nodup := by
    unfold Circuit.allQubits
    exact List.nodup_dedup _
  cases hq : (sqC l).allQubits with
  | nil => exact Or.inl rfl
  | cons x xs =>
    right
    rw [hq] at hnodup hsub
    exact nodup_const_eq x xs q hnodup hsub

theorem ejectZOptimize_sq (tol : ℚ) (q : Nat) (l : List (Option Operation))
    (hwf : aWf q l) :
    ejectZOptimize tol (sqC l) = sqC l ∨
      (ejectZOptimize tol (sqC l) = sqC (aScan tol q l) ∧ aWf q (aScan tol q l)) := by
  rcases allQubits_sq q l hwf with h | h
  · left
    unfold ejectZOptimize
    rw [h]
    rfl
  · right
    unfold ejectZOptimize
    rw [h]
    simp only [List.foldl_cons, List.foldl_nil]
    exact ejectQubit_sim tol q l hwf

/-- The abstraction of a well-formed single-qubit timeline: each moment
contributes its sole operation, if any. -/
def absC (c : Circuit) : List (Option Operation) :=
  c.moments.map (fun m => m.ops.head?)

theorem map_self_of_eq {α : Type} (l : List α) (f : α → α) (h : ∀ a ∈ l, f a = a) :
    l.map f = l := by
  induction l with
  | nil => rfl
  | cons a l ih =>
    simp only [List.map_cons]
    rw [h a (List.mem_cons_self a l), ih (fun b hb => h b (List.mem_cons_of_mem a hb))]

theorem sq_repr (c : Circuit) (q : Nat)
    (hwf : ∀ m ∈ c.moments, m.ops.length ≤ 1 ∧ ∀ op ∈ m.ops, op.qubits = [q]) :
    c = sqC (absC c) ∧ aWf q (absC c) := by
  constructor
  · apply circuit_eq_of_moments
    show c.moments = (c.moments.map (fun m => m.ops.head?)).map omom
    rw [List.map_map]
    symm
    apply map_self_of_eq
    intro m hm
    show omom m.ops.head? = m
    obtain ⟨h1, h2⟩ := hwf m hm
    cases m with
    | mk ops =>
      cases ops with
      | nil => rfl
      | cons a t =>
        cases t with
        | nil => rfl
        | cons b t2 =>
          exfalso
          simp at h1
  · intro o ho op hop
    subst hop
    rw [absC, List.mem_map] at ho
    obtain ⟨m, hm, ho2⟩ := ho
    have hmem : op ∈ m.ops := by
      cases hops : m.ops with
      | nil =>
        rw [hops] at ho2
        cases ho2
      | cons a t =>
        rw [hops] at ho2
        have h3 : a = op := by injection ho2
        rw [← h3]
        exact List.mem_cons_self a t
    exact (hwf m hm).2 op hmem

/-- C3 (corrected): on a well-formed single-qubit timeline — every moment
holds at most one operation, and every operation acts on exactly the one
qubit `q` — the EjectZ pass is idempotent: running it a second time
returns the first run's output unchanged.  (The unrestricted claim is
refuted by `ejectZ_not_idempotent`.) -/
theorem ejectZ_idempotent_single_qubit (tol : ℚ) (q : Nat) (c : Circuit)
    (hwf : ∀ m ∈ c.moments, m.ops.length ≤ 1 ∧ ∀ op ∈ m.ops, op.qubits = [q]) :
    ejectZOptimize tol (ejectZOptimize tol c) = ejectZOptimize tol c := by
  obtain ⟨hrep, hawf⟩ := sq_repr c q hwf
  rw [hrep]
  rcases ejectZOptimize_sq tol q (absC c) hawf with h | ⟨h1, hwf1⟩
  · rw [h, h]
  · rw [h1]
    rcases ejectZOptimize_sq tol q (aScan tol q (absC c)) hwf1 with h2 | ⟨h2, hwf2⟩
    · rw [h2]
    · rw [h2]
      rw [aScan_id_of_normal tol q _ (aScan_normal tol q (absC c))]

/-- Witness for C3 at a concrete single-qubit timeline holding a
half-turn Z followed by a phaseable gate. -/
theorem ejectZ_idempotent_single_qubit_witness :
    (∀ m ∈ (⟨[⟨[⟨.expZ (.val (1 / 2)), [0]⟩]⟩, ⟨[⟨.phaseable 0 0, [0]⟩]⟩]⟩ :
        Circuit).moments, m.ops.length ≤ 1 ∧ ∀ op ∈ m.ops, op.qubits = [0]) ∧
    ejectZOptimize 0 (ejectZOptimize 0
        ⟨[⟨[⟨.expZ (.val (1 / 2)), [0]⟩]⟩, ⟨[⟨.phaseable 0 0, [0]⟩]⟩]⟩) =
      ejectZOptimize 0 ⟨[⟨[⟨.expZ (.val (1 / 2)), [0]⟩]⟩,
        ⟨[⟨.phaseable 0 0, [0]⟩]⟩]⟩ :=
  ⟨by decide, ejectZ_idempotent_single_qubit 0 0 _ (by decide)⟩
